import Mathlib

/-!
Verification of the completion-tracking engine and event fan-out layer of the
torrential repository (`TorrentEventer` in the torrential package).

The embedding models:
* the torrent geometry (`TFile`, `TPiece`), as exposed by `torrent.File`
  (`Offset()`, `Length()`) and `torrent.Piece.Info()`;
* `getPieceIndices` (a fresh interval scan per file);
* the tracker worker `TorrentEventer.run` as a sequential process: the sweep
  that builds the `incompleteFilePieces` / `incompletePieceFiles` maps, the
  already-complete-file pass, the `BytesMissing() == 0` short circuit, the
  piece-feed consumption loop, the seed phase, and the final close;
* `TorrentEventer.Events` as a small-step transition system over the main
  goroutine plus one worker per piece and per file, driven by an explicit
  schedule, so that every interleaving of selects and channel sends is a
  schedule.

Files are identified by their index in the torrent's file list.  The source
keys its maps by `file.Path()`, which is unique per file of a torrent, so the
index is a faithful key.  Offsets and lengths are `int64` in the source and are
modelled as `Int`.

Go's `close` of an already-closed channel panics; the model tracks the set of
closed signals and records a panic instead of closing twice.  Iteration over a
Go map has unspecified order; wherever the source ranges over a map the model
iterates keys in ascending order (the verified properties do not depend on the
order, and a recorded counterexample uses only map contents, not order).
-/

/-- A file of the torrent: `file.Offset()` and `file.Length()`. -/
structure TFile where
  offset : Int
  length : Int
  deriving DecidableEq

/-- A piece of the torrent: `piece.Info().Offset()` and `piece.Info().Length()`. -/
structure TPiece where
  offset : Int
  length : Int
  deriving DecidableEq

/-- The overlap test used by both `getPieceIndices` and the sweep in `run`:
`pieceEnd >= fileBegin && fileEnd >= pieceBegin` with
`pieceEnd = pieceBegin + pieceLength - 1` and `fileEnd = fileBegin + fileLength - 1`. -/
def ovl (f : TFile) (p : TPiece) : Prop :=
  p.offset + p.length - 1 ≥ f.offset ∧ f.offset + f.length - 1 ≥ p.offset

instance (f : TFile) (p : TPiece) : Decidable (ovl f p) := by
  unfold ovl; infer_instance

/-- The spec's overlap condition on half-open ranges: `[a,b)` and `[c,d)`
overlap iff `b > c && d > a`, instantiated to a file `[a, a+la)` and a piece
`[c, c+lc)`. -/
def specOvl (f : TFile) (p : TPiece) : Prop :=
  f.offset + f.length > p.offset ∧ p.offset + p.length > f.offset

instance (f : TFile) (p : TPiece) : Decidable (specOvl f p) := by
  unfold specOvl; infer_instance

/-- Over the integers the closed-interval test of the code is exactly the
spec's strict condition, for all (also zero) lengths. -/
theorem ovl_iff_specOvl (f : TFile) (p : TPiece) : ovl f p ↔ specOvl f p := by
  unfold ovl specOvl; omega

/-- `getPieceIndices(file)`: iterate over all piece indices in increasing
order; if the file has length 0 return the (still empty) accumulated list;
otherwise append every piece whose range passes the overlap test.  `i` is the
index of the head of `ps`. -/
def getPieceIndicesGo (file : TFile) : Nat → List TPiece → List Nat
  | _, [] => []
  | i, p :: rest =>
    if file.length = 0 then []
    else if ovl file p then i :: getPieceIndicesGo file (i + 1) rest
    else getPieceIndicesGo file (i + 1) rest

def getPieceIndices (pieces : List TPiece) (file : TFile) : List Nat :=
  getPieceIndicesGo file 0 pieces

/-- Signals owned by one `TorrentEventer`: each is a channel closed at most
once by the tracker worker. -/
inductive Sig
  | added
  | gotInfo
  | pieceDone (i : Nat)
  | fileDone (f : Nat)
  | downloadDone
  | seedingDone
  | closedSig
  deriving DecidableEq

/-- The worker's observable state: the closing trace (in order), the set of
already-closed signals, and whether a `close` of an already-closed channel was
reached (a Go runtime panic). -/
structure RunState where
  trace : List Sig
  closedSet : List Sig
  panicked : Bool
  deriving DecidableEq

def RunState.init : RunState := ⟨[], [], false⟩

/-- `close(ch)`: appends to the trace; closing an already-closed channel is a
panic, after which nothing further happens. -/
def closeCh (s : RunState) (x : Sig) : RunState :=
  if s.panicked then s
  else if x ∈ s.closedSet then { s with panicked := true }
  else { trace := s.trace ++ [x], closedSet := x :: s.closedSet, panicked := false }

/-- Set removal on the list representation of a Go `map` key set /
`map[int]struct{}`: removes every occurrence (the lists built below have no
duplicates, so this is Go's `delete`). -/
def eraseAll (l : List Nat) (x : Nat) : List Nat := l.filter (fun y => y ≠ x)

theorem mem_eraseAll {l : List Nat} {x y : Nat} : y ∈ eraseAll l x ↔ y ∈ l ∧ y ≠ x := by
  simp [eraseAll]

/-- The two mutable maps of `run`: `incompleteFilePieces` (file ↦ set of
incomplete piece indices) and `incompletePieceFiles` (piece ↦ set of file
indices), each with its key set, all represented as duplicate-free lists.  A
missing key reads as the empty set, as a Go map access does; the model keeps
`fp x = []` whenever `x ∉ fpDom`. -/
structure RMaps where
  fp : Nat → List Nat
  fpDom : List Nat
  pf : Nat → List Nat
  pfDom : List Nat

def RMaps.init (nFiles : Nat) : RMaps :=
  { fp := fun _ => []
    fpDom := List.range nFiles
    pf := fun _ => []
    pfDom := [] }

/-- The inner loop of the sweep: `for j, file := range files[cursor:]`.
`j` counts from 0 inside the slice, the absolute file index is `start + j`;
on an overlap the code does `fileIndex = j`, storing the RELATIVE index.
Returns the final cursor value and the absolute indices of the overlapping
nonzero-length files, in increasing order. -/
def scanFilesGo (pb pe : Int) (start : Nat) : Nat → Nat → List TFile → Nat × List Nat
  | _, cur, [] => (cur, [])
  | j, cur, f :: rest =>
    if f.length = 0 then scanFilesGo pb pe start (j + 1) cur rest
    else if pe ≥ f.offset ∧ f.offset + f.length - 1 ≥ pb then
      let r := scanFilesGo pb pe start (j + 1) j rest
      (r.1, (start + j) :: r.2)
    else scanFilesGo pb pe start (j + 1) cur rest

def scanFiles (files : List TFile) (pb pe : Int) (cursor : Nat) : Nat × List Nat :=
  scanFilesGo pb pe cursor 0 cursor (files.drop cursor)

/-- The sweep over all pieces (`run`, the loop after `close(e.chansReady)`):
pieces of length 0 and pieces already complete get their `pieceDone` channel
closed and are skipped; every other piece gets an entry in
`incompletePieceFiles`, and the overlapping files found by `scanFiles` are
recorded in both maps.  `i` is the index of the head of `ps`. -/
def sweepPieces (files : List TFile) (initComplete : Nat → Bool) :
    Nat → List TPiece → Nat → RMaps → RunState → RMaps × RunState × Nat
  | _, [], cur, m, rs => (m, rs, cur)
  | i, p :: rest, cur, m, rs =>
    if p.length = 0 ∨ initComplete i then
      sweepPieces files initComplete (i + 1) rest cur m (closeCh rs (.pieceDone i))
    else
      let pb := p.offset
      let pe := pb + p.length - 1
      let r := scanFiles files pb pe cur
      let m' : RMaps :=
        { fp := fun x => if x ∈ r.2 then List.insert i (m.fp x) else m.fp x
          fpDom := m.fpDom
          pf := fun x => if x = i then r.2 else m.pf x
          pfDom := List.insert i m.pfDom }
      sweepPieces files initComplete (i + 1) rest r.1 m' rs

/-- "Check for files that are already complete" (`run`): every file whose set
of incomplete pieces is empty gets its `fileDone` channel closed and is
removed from `incompleteFilePieces`.  (The source also ranges over the — empty
— piece set deleting the file from `incompletePieceFiles`, a no-op.)  The
source ranges over the map; the model visits keys in ascending order. -/
def checkCompleteFiles (nFiles : Nat) (m : RMaps) (rs : RunState) : RMaps × RunState :=
  (List.range nFiles).foldl
    (fun acc f =>
      if f ∈ acc.1.fpDom ∧ acc.1.fp f = [] then
        ({ acc.1 with
            fpDom := eraseAll acc.1.fpDom f
            fp := fun x => if x = f then [] else acc.1.fp x },
          closeCh acc.2 (.fileDone f))
      else acc)
    (m, rs)

/-- The `BytesMissing() == 0` short circuit (`run`), first half: close every
remaining piece channel and delete it from `incompletePieceFiles`.  The
source ranges over the map; the model visits keys in ascending order. -/
def closeAllPieces (nPieces : Nat) (mrs : RMaps × RunState) : RMaps × RunState :=
  (List.range nPieces).foldl
    (fun acc i =>
      if i ∈ acc.1.pfDom then
        ({ acc.1 with
            pfDom := eraseAll acc.1.pfDom i
            pf := fun x => if x = i then [] else acc.1.pf x },
          closeCh acc.2 (.pieceDone i))
      else acc)
    mrs

/-- The `BytesMissing() == 0` short circuit, second half: close every
remaining file channel and delete it from `incompleteFilePieces`. -/
def closeAllFiles (nFiles : Nat) (mrs : RMaps × RunState) : RMaps × RunState :=
  (List.range nFiles).foldl
    (fun acc f =>
      if f ∈ acc.1.fpDom then
        ({ acc.1 with
            fpDom := eraseAll acc.1.fpDom f
            fp := fun x => if x = f then [] else acc.1.fp x },
          closeCh acc.2 (.fileDone f))
      else acc)
    mrs

/-- The `BytesMissing() == 0` short circuit (`run`): close every remaining
piece channel, then every remaining file channel, then `downloadDone`. -/
def shortCircuitClose (nPieces nFiles : Nat) (m : RMaps) (rs : RunState) : RMaps × RunState :=
  let b := closeAllFiles nFiles (closeAllPieces nPieces (m, rs))
  (b.1, closeCh b.2 .downloadDone)

/-- The body of the per-completed-piece file update: discard the piece `idx`
from file `f`'s incomplete set; if the set becomes empty, close the file's
channel and delete the file from both maps. -/
def feedFileStep (idx : Nat) (acc : RMaps × RunState) (f : Nat) : RMaps × RunState :=
  let m1 : RMaps :=
    { acc.1 with fp := fun x => if x = f then eraseAll (acc.1.fp x) idx else acc.1.fp x }
  if m1.fp f = [] then
    ({ m1 with
        fpDom := eraseAll m1.fpDom f
        fp := fun x => if x = f then [] else m1.fp x
        pf := fun x => if x = idx then eraseAll (m1.pf x) f else m1.pf x },
      closeCh acc.2 (.fileDone f))
  else (m1, acc.2)

/-- One completed-piece update of the feed loop: close the piece channel, then
for every file the piece has data for, run `feedFileStep`.  The source ranges
over `incompletePieceFiles[idx]`; the model visits it in its list order. -/
def feedPieceStep (idx : Nat) (m : RMaps) (rs : RunState) : RMaps × RunState :=
  (m.pf idx).foldl (feedFileStep idx) (m, closeCh rs (.pieceDone idx))

/-- The feed consumption loop of `run`.  `feed` is the remaining sequence of
`PieceStateChange` notifications, `k` the number already consumed, and
`missing0 k` answers `BytesMissing() == 0` when queried after `k` consumed
notifications.  When the subscription closes (`feed` exhausted) the torrent
was closed: close `closedSig` and return `false` (the worker returns); when
zero bytes are missing, close `downloadDone` and return `true` (break to the
seed phase). -/
def feedLoop (missing0 : Nat → Bool) :
    List (Nat × Bool) → Nat → RMaps → RunState → RMaps × RunState × Bool
  | [], _, m, rs => (m, closeCh rs .closedSig, false)
  | (idx, complete) :: rest, k, m, rs =>
    if complete then
      let a := feedPieceStep idx m rs
      if missing0 (k + 1) then (a.1, closeCh a.2 .downloadDone, true)
      else feedLoop missing0 rest (k + 1) a.1 a.2
    else feedLoop missing0 rest (k + 1) m rs

/-- Everything the external torrent contributes to one run of the worker:
the geometry, which of `GotInfo`/`Closed` wins the initial race, the piece
states observed by the sweep, the notification feed, the `BytesMissing`
answers (indexed by consumed notifications), and the seed-phase outcome
(`seedImmediate`: `seedRatio <= 0 || !torrent.Seeding()`; `seedMet`: the poll
loop reaches the ratio before the torrent closes — the float arithmetic that
decides it is abstracted into this oracle). -/
structure TInput where
  files : List TFile
  pieces : List TPiece
  infoBeforeClosed : Bool
  initComplete : Nat → Bool
  feed : List (Nat × Bool)
  missing0 : Nat → Bool
  seedImmediate : Bool
  seedMet : Bool

/-- The seed phase and the final wait for torrent closure.  If the ratio is
not monitored, or once the poll loop meets it, `seedingDone` closes and the
worker waits for closure and closes `closedSig`; if the torrent closes during
the poll loop, only `closedSig` closes. -/
def seedPhase (t : TInput) (rs : RunState) : RunState :=
  if t.seedImmediate then closeCh (closeCh rs .seedingDone) .closedSig
  else if t.seedMet then closeCh (closeCh rs .seedingDone) .closedSig
  else closeCh rs .closedSig

/-- The initialization part of the worker, after `GotInfo` won the race:
create the maps, sweep the pieces, and close the already-complete files.
Everything here happens before any feed notification is consumed. -/
def runInit (t : TInput) : RMaps × RunState :=
  let rs := closeCh (closeCh RunState.init .added) .gotInfo
  let s := sweepPieces t.files t.initComplete 0 t.pieces 0 (RMaps.init t.files.length) rs
  checkCompleteFiles t.files.length s.1 s.2.1

/-- The tracker worker `TorrentEventer.run`, as a function from the torrent's
behaviour to the closing trace. -/
def runModel (t : TInput) : RunState :=
  if ¬ t.infoBeforeClosed then
    closeCh (closeCh RunState.init .added) .closedSig
  else
    let a := runInit t
    if t.missing0 0 then
      let b := shortCircuitClose t.pieces.length t.files.length a.1 a.2
      seedPhase t b.2
    else
      let c := feedLoop t.missing0 t.feed 0 a.1 a.2
      if c.2.2 then seedPhase t c.2.1 else c.2.1

/-! ## The per-subscriber event stream (`TorrentEventer.Events`)

`Events(done)` spawns a main goroutine walking the stage selects, plus (once
`chansReady` fires) one goroutine per piece and one per file.  The model is a
transition system driven by an explicit schedule; one schedule action either
lets the environment (the tracker worker and the caller) close a signal, or
lets one goroutine take one step.  A blocking send on the unbuffered `events`
channel is split into committing the select branch and delivering the value,
so concurrent pending sends may be received in any order, as in Go. -/

/-- Event types sent to the subscriber. -/
inductive EvT
  | added
  | gotInfo
  | pieceDone (i : Nat)
  | fileDone (f : Nat)
  | downloadDone
  | seedingDone
  | closedEv
  deriving DecidableEq

/-- The channels the stream's selects and waits consume: the eventer's
signals, the internal `chansReady` channel, and the caller's `done` channel. -/
inductive ESig
  | added
  | gotInfo
  | chansReady
  | pieceDone (i : Nat)
  | fileDone (f : Nat)
  | downloadDone
  | seedingDone
  | closedSig
  | cancel
  deriving DecidableEq

/-- Program counter of the main goroutine of `Events`.  `sendClosed` is the
`events <- Closed` of whichever stage's select chose the `Closed` branch;
`returning` is after the last send and before the deferred `close(events)`
has run; `finished` is after `close(events)`. -/
inductive MainPC
  | selAdded | sendAdded
  | selGotInfo | sendGotInfo
  | selChansReady
  | wgWait
  | selDownload | sendDownload
  | selSeeding | sendSeeding
  | selClosed
  | sendClosed
  | returning
  | finished
  deriving DecidableEq

/-- Program counter of one per-piece goroutine: blocked in its select,
blocked sending its `PieceDone` event, or returned (`emitted` records whether
the event was sent or the goroutine left via `Closed`/`done`). -/
inductive PPC
  | waiting
  | sending
  | finished (emitted : Bool)
  deriving DecidableEq

/-- Program counter of one per-file goroutine: blocked in its select, blocked
in `pieceWg.Wait()` on the file's piece channels, blocked sending its
`FileDone` event, or returned. -/
inductive FPC
  | waiting
  | waitingPieces
  | sending
  | finished (emitted : Bool)
  deriving DecidableEq

/-- State of one subscriber's stream: which signals have closed, the three
kinds of goroutines, and the events received so far. -/
structure EState where
  sigs : List ESig
  main : MainPC
  spawned : Bool
  pw : Nat → PPC
  fw : Nat → FPC
  delivered : List EvT

def EState.init : EState :=
  { sigs := []
    main := .selAdded
    spawned := false
    pw := fun _ => .waiting
    fw := fun _ => .waiting
    delivered := [] }

/-- One schedule action: the environment closes a channel, the main goroutine
takes a step (`k` picks the select branch: 0 the stage's signal, 1 `Closed`,
2 `done`), a piece or file goroutine takes a step, or a pending send is
received by the subscriber. -/
inductive EAct
  | envClose (s : ESig)
  | mainStep (k : Nat)
  | pieceStep (i : Nat) (k : Nat)
  | fileStep (f : Nat)  (k : Nat)
  | pieceSend (i : Nat)
  | fileSend (f : Nat)
  deriving DecidableEq

/-- A step of the main goroutine.  At a select, branch `k` is taken only if
its channel has closed (a select never fires an un-ready branch); at a send
state the event is handed to the subscriber; `wgWait` passes once every
per-file goroutine has returned. -/
def mainStepF (nFiles : Nat) (st : EState) (k : Nat) : EState :=
  match st.main with
  | .selAdded =>
    if k = 0 ∧ .added ∈ st.sigs then { st with main := .sendAdded }
    else if k = 1 ∧ .closedSig ∈ st.sigs then { st with main := .sendClosed }
    else if k = 2 ∧ .cancel ∈ st.sigs then { st with main := .returning }
    else st
  | .sendAdded => { st with main := .selGotInfo, delivered := st.delivered ++ [.added] }
  | .selGotInfo =>
    if k = 0 ∧ .gotInfo ∈ st.sigs then { st with main := .sendGotInfo }
    else if k = 1 ∧ .closedSig ∈ st.sigs then { st with main := .sendClosed }
    else if k = 2 ∧ .cancel ∈ st.sigs then { st with main := .returning }
    else st
  | .sendGotInfo => { st with main := .selChansReady, delivered := st.delivered ++ [.gotInfo] }
  | .selChansReady =>
    if k = 0 ∧ .chansReady ∈ st.sigs then { st with main := .wgWait, spawned := true }
    else if k = 1 ∧ .closedSig ∈ st.sigs then { st with main := .sendClosed }
    else if k = 2 ∧ .cancel ∈ st.sigs then { st with main := .returning }
    else st
  | .wgWait =>
    if ∀ f ∈ List.range nFiles, ∃ b, st.fw f = .finished b then { st with main := .selDownload }
    else st
  | .selDownload =>
    if k = 0 ∧ .downloadDone ∈ st.sigs then { st with main := .sendDownload }
    else if k = 1 ∧ .closedSig ∈ st.sigs then { st with main := .sendClosed }
    else if k = 2 ∧ .cancel ∈ st.sigs then { st with main := .returning }
    else st
  | .sendDownload => { st with main := .selSeeding, delivered := st.delivered ++ [.downloadDone] }
  | .selSeeding =>
    if k = 0 ∧ .seedingDone ∈ st.sigs then { st with main := .sendSeeding }
    else if k = 1 ∧ .closedSig ∈ st.sigs then { st with main := .sendClosed }
    else if k = 2 ∧ .cancel ∈ st.sigs then { st with main := .returning }
    else st
  | .sendSeeding => { st with main := .selClosed, delivered := st.delivered ++ [.seedingDone] }
  | .selClosed =>
    if k = 0 ∧ .closedSig ∈ st.sigs then { st with main := .sendClosed }
    else if k = 2 ∧ .cancel ∈ st.sigs then { st with main := .returning }
    else st
  | .sendClosed => { st with main := .returning, delivered := st.delivered ++ [.closedEv] }
  | .returning => { st with main := .finished }
  | .finished => st

/-- A select step of the per-piece goroutine `i`. -/
def pieceStepF (nPieces : Nat) (st : EState) (i k : Nat) : EState :=
  if st.spawned ∧ i < nPieces ∧ st.pw i = .waiting then
    if k = 0 ∧ .pieceDone i ∈ st.sigs then
      { st with pw := fun x => if x = i then .sending else st.pw x }
    else if k = 1 ∧ .closedSig ∈ st.sigs then
      { st with pw := fun x => if x = i then .finished false else st.pw x }
    else if k = 2 ∧ .cancel ∈ st.sigs then
      { st with pw := fun x => if x = i then .finished false else st.pw x }
    else st
  else st

/-- A step of the per-file goroutine `f`: its select, or — after `fileDone`
fired — the `pieceWg.Wait()` on the `PieceDone` channels of the pieces
returned by `getPieceIndices`, which passes only once all of them closed. -/
def fileStepF (files : List TFile) (pieces : List TPiece) (st : EState) (f k : Nat) : EState :=
  if st.spawned ∧ f < files.length then
    match st.fw f with
    | .waiting =>
      if k = 0 ∧ .fileDone f ∈ st.sigs then
        { st with fw := fun x => if x = f then .waitingPieces else st.fw x }
      else if k = 1 ∧ .closedSig ∈ st.sigs then
        { st with fw := fun x => if x = f then .finished false else st.fw x }
      else if k = 2 ∧ .cancel ∈ st.sigs then
        { st with fw := fun x => if x = f then .finished false else st.fw x }
      else st
    | .waitingPieces =>
      if ∀ i ∈ getPieceIndices pieces (files.getD f ⟨0, 0⟩), .pieceDone i ∈ st.sigs then
        { st with fw := fun x => if x = f then .sending else st.fw x }
      else st
    | _ => st
  else st

/-- Delivery of a pending send to the subscriber.  After the main goroutine's
deferred `close(events)` has run (`finished`) nothing can be received any
more (a still-pending send would panic). -/
def pieceSendF (st : EState) (i : Nat) : EState :=
  if st.pw i = .sending ∧ st.main ≠ .finished then
    { st with
        pw := fun x => if x = i then .finished true else st.pw x
        delivered := st.delivered ++ [.pieceDone i] }
  else st

def fileSendF (st : EState) (f : Nat) : EState :=
  if st.fw f = .sending ∧ st.main ≠ .finished then
    { st with
        fw := fun x => if x = f then .finished true else st.fw x
        delivered := st.delivered ++ [.fileDone f] }
  else st

def estep (files : List TFile) (pieces : List TPiece) (st : EState) : EAct → EState
  | .envClose s => { st with sigs := s :: st.sigs }
  | .mainStep k => mainStepF files.length st k
  | .pieceStep i k => pieceStepF pieces.length st i k
  | .fileStep f k => fileStepF files pieces st f k
  | .pieceSend i => pieceSendF st i
  | .fileSend f => fileSendF st f

/-- Execution of a schedule from the initial state: every interleaving of the
stream's goroutines, signal closures and deliveries is some schedule. -/
def eexec (files : List TFile) (pieces : List TPiece) (sched : List EAct) : EState :=
  sched.foldl (estep files pieces) EState.init

/-- `Precedes x y d`: every occurrence of `x` in `d` is before every
occurrence of `y` (vacuously true when either does not occur). -/
def Precedes {α : Type} (x y : α) (d : List α) : Prop :=
  ∀ i j, d.get? i = some x → d.get? j = some y → i < j

/-! ## Basic lemmas about the close primitive and traces -/

theorem closeCh_of_panicked {s : RunState} (h : s.panicked = true) (x : Sig) :
    closeCh s x = s := by
  simp [closeCh, h]

theorem closeCh_panicked_mono {s : RunState} (h : s.panicked = true) (x : Sig) :
    (closeCh s x).panicked = true := by
  simp [closeCh, h]

theorem closeCh_trace_eq {s : RunState} {x : Sig} (hp : s.panicked = false)
    (hc : x ∉ s.closedSet) : (closeCh s x).trace = s.trace ++ [x] := by
  simp [closeCh, hp, hc]

/-- The trace only ever grows, by at most the closed signal. -/
theorem closeCh_trace_sub {s : RunState} {x y : Sig} (h : y ∈ s.trace) :
    y ∈ (closeCh s x).trace := by
  unfold closeCh
  split
  · exact h
  · split
    · exact h
    · simp [h]

theorem mem_closeCh_trace {s : RunState} {x y : Sig} (h : y ∈ (closeCh s x).trace) :
    y ∈ s.trace ∨ y = x := by
  unfold closeCh at h
  split at h
  · exact .inl h
  · split at h
    · exact .inl h
    · simpa using h

theorem closeCh_closedSet_sub {s : RunState} {x y : Sig} (h : y ∈ s.closedSet) :
    y ∈ (closeCh s x).closedSet := by
  unfold closeCh
  split
  · exact h
  · split
    · exact h
    · simp [h]

theorem mem_closeCh_closedSet {s : RunState} {x y : Sig} (h : y ∈ (closeCh s x).closedSet) :
    y ∈ s.closedSet ∨ y = x := by
  unfold closeCh at h
  split at h
  · exact .inl h
  · split at h
    · exact .inl h
    · exact (List.mem_cons.mp h).symm.imp id (fun h => h)

theorem mem_trace_closeCh_self {s : RunState} {x : Sig} (hp : s.panicked = false)
    (hc : x ∉ s.closedSet) : x ∈ (closeCh s x).trace := by
  simp [closeCh_trace_eq hp hc]

/-- In a list of the shape `T ++ y :: R` with `y` nowhere else and `x` only in
`T`, every `x` is before every `y`. -/
theorem precedes_of_parts {α : Type} {x y : α} {T R : List α}
    (hx : x ∈ T) (hyT : y ∉ T) (hyR : y ∉ R) (hxR : x ∉ R) :
    Precedes x y (T ++ y :: R) := by
  intro i j hi hj
  have hxy : x ≠ y := fun h => hyT (h ▸ hx)
  have hj' : j = T.length := by
    rcases Nat.lt_trichotomy j T.length with h | h | h
    · exfalso
      rw [List.get?_append h] at hj
      exact hyT (List.get?_mem hj)
    · exact h
    · exfalso
      rw [List.get?_append_right (Nat.le_of_lt h)] at hj
      rcases Nat.exists_eq_add_of_lt h with ⟨d, hd⟩
      have : j - T.length = d + 1 := by omega
      rw [this] at hj
      simp only [List.get?_cons_succ] at hj
      exact hyR (List.get?_mem hj)
  have hi' : i < T.length := by
    rcases Nat.lt_trichotomy i T.length with h | h | h
    · exact h
    · exfalso
      rw [List.get?_append_right (Nat.le_of_eq h.symm), h] at hi
      simp only [Nat.sub_self, List.get?_cons_zero, Option.some.injEq] at hi
      exact hxy hi.symm
    · exfalso
      rw [List.get?_append_right (Nat.le_of_lt h)] at hi
      rcases Nat.exists_eq_add_of_lt h with ⟨d, hd⟩
      have : i - T.length = d + 1 := by omega
      rw [this] at hi
      simp only [List.get?_cons_succ] at hi
      exact hxR (List.get?_mem hi)
  omega

/-! ## C6: closure before metadata -/

/-- **C6.** If the transfer closes before its metadata is ready, the worker
closes `Closed` and terminates: the closing trace is exactly
`[added, closedSig]`, so `GotInfo`, every piece and file signal,
`DownloadDone` and `SeedingDone` never close, and `Closed` does close. -/
theorem C6_closed_before_info (t : TInput) (h : t.infoBeforeClosed = false) :
    (runModel t).trace = [Sig.added, Sig.closedSig] ∧
    Sig.closedSig ∈ (runModel t).trace ∧
    Sig.gotInfo ∉ (runModel t).trace ∧
    (∀ i, Sig.pieceDone i ∉ (runModel t).trace) ∧
    (∀ f, Sig.fileDone f ∉ (runModel t).trace) ∧
    Sig.downloadDone ∉ (runModel t).trace ∧
    Sig.seedingDone ∉ (runModel t).trace := by
  have htr : (runModel t).trace = [Sig.added, Sig.closedSig] := by
    simp [runModel, h, closeCh, RunState.init]
  refine ⟨htr, ?_, ?_, ?_, ?_, ?_, ?_⟩ <;> simp [htr]

/-- Witness for C6 at a concrete transfer. -/
def c6input : TInput :=
  { files := [⟨0, 10⟩]
    pieces := [⟨0, 10⟩]
    infoBeforeClosed := false
    initComplete := fun _ => false
    feed := []
    missing0 := fun _ => false
    seedImmediate := true
    seedMet := false }

theorem C6_closed_before_info_witness :
    (runModel c6input).trace = [Sig.added, Sig.closedSig] ∧
    Sig.closedSig ∈ (runModel c6input).trace ∧
    Sig.gotInfo ∉ (runModel c6input).trace ∧
    (∀ i, Sig.pieceDone i ∉ (runModel c6input).trace) ∧
    (∀ f, Sig.fileDone f ∉ (runModel c6input).trace) ∧
    Sig.downloadDone ∉ (runModel c6input).trace ∧
    Sig.seedingDone ∉ (runModel c6input).trace :=
  C6_closed_before_info c6input rfl

/-! ## Characterization of the sweep's inner file scan -/

/-- Membership in the scan result: exactly the absolute indices of the
nonzero-length files of the scanned suffix that pass the overlap test. -/
theorem scanFilesGo_mem {pb pe : Int} {start : Nat} :
    ∀ (fs : List TFile) (j cur x : Nat),
      x ∈ (scanFilesGo pb pe start j cur fs).2 ↔
        ∃ r fl, fs.get? r = some fl ∧ fl.length ≠ 0 ∧
          (pe ≥ fl.offset ∧ fl.offset + fl.length - 1 ≥ pb) ∧ x = start + j + r := by
  intro fs
  induction fs with
  | nil => simp [scanFilesGo]
  | cons f rest ih =>
    intro j cur x
    by_cases h0 : f.length = 0
    · rw [scanFilesGo, if_pos h0]
      rw [ih (j + 1) cur x]
      constructor
      · rintro ⟨r, fl, hget, hlen, hovl, hx⟩
        exact ⟨r + 1, fl, by simpa using hget, hlen, hovl, by omega⟩
      · rintro ⟨r, fl, hget, hlen, hovl, hx⟩
        match r, hget with
        | 0, hget =>
          exfalso
          simp only [List.get?_cons_zero, Option.some.injEq] at hget
          exact hlen (hget ▸ h0)
        | r + 1, hget => exact ⟨r, fl, by simpa using hget, hlen, hovl, by omega⟩
    · by_cases hov : pe ≥ f.offset ∧ f.offset + f.length - 1 ≥ pb
      · rw [scanFilesGo, if_neg h0, if_pos hov]
        simp only [List.mem_cons]
        rw [ih (j + 1) j x]
        constructor
        · rintro (rfl | ⟨r, fl, hget, hlen, hovl, hx⟩)
          · exact ⟨0, f, rfl, h0, hov, by omega⟩
          · exact ⟨r + 1, fl, by simpa using hget, hlen, hovl, by omega⟩
        · rintro ⟨r, fl, hget, hlen, hovl, hx⟩
          match r, hget with
          | 0, hget =>
            left
            simp only [List.get?_cons_zero, Option.some.injEq] at hget
            omega
          | r + 1, hget => exact .inr ⟨r, fl, by simpa using hget, hlen, hovl, by omega⟩
      · rw [scanFilesGo, if_neg h0, if_neg hov]
        rw [ih (j + 1) cur x]
        constructor
        · rintro ⟨r, fl, hget, hlen, hovl, hx⟩
          exact ⟨r + 1, fl, by simpa using hget, hlen, hovl, by omega⟩
        · rintro ⟨r, fl, hget, hlen, hovl, hx⟩
          match r, hget with
          | 0, hget =>
            exfalso
            simp only [List.get?_cons_zero, Option.some.injEq] at hget
            exact hov (hget ▸ hovl)
          | r + 1, hget => exact ⟨r, fl, by simpa using hget, hlen, hovl, by omega⟩

/-- The final cursor is either unchanged or bounded by some member of the
scan result (the code stores the relative index `j`, which never exceeds the
absolute index `start + j` it found). -/
theorem scanFilesGo_cursor {pb pe : Int} {start : Nat} :
    ∀ (fs : List TFile) (j cur : Nat),
      (scanFilesGo pb pe start j cur fs).1 = cur ∨
        ∃ g ∈ (scanFilesGo pb pe start j cur fs).2, (scanFilesGo pb pe start j cur fs).1 ≤ g := by
  intro fs
  induction fs with
  | nil => intro j cur; left; rfl
  | cons f rest ih =>
    intro j cur
    by_cases h0 : f.length = 0
    · rw [scanFilesGo, if_pos h0]; exact ih (j + 1) cur
    · by_cases hov : pe ≥ f.offset ∧ f.offset + f.length - 1 ≥ pb
      · rw [scanFilesGo, if_neg h0, if_pos hov]
        rcases ih (j + 1) j with h | ⟨g, hg, hle⟩
        · right
          refine ⟨start + j, by simp, ?_⟩
          simp only [h]
          omega
        · right
          exact ⟨g, by simp [hg], hle⟩
      · rw [scanFilesGo, if_neg h0, if_neg hov]; exact ih (j + 1) cur

theorem scanFiles_mem (files : List TFile) (pb pe : Int) (cur x : Nat) :
    x ∈ (scanFiles files pb pe cur).2 ↔
      cur ≤ x ∧ ∃ fl, files.get? x = some fl ∧ fl.length ≠ 0 ∧
        (pe ≥ fl.offset ∧ fl.offset + fl.length - 1 ≥ pb) := by
  unfold scanFiles
  rw [scanFilesGo_mem]
  constructor
  · rintro ⟨r, fl, hget, hlen, hovl, hx⟩
    rw [List.get?_drop] at hget
    exact ⟨by omega, fl, by rw [show x = cur + r by omega]; exact hget, hlen, hovl⟩
  · rintro ⟨hle, fl, hget, hlen, hovl⟩
    refine ⟨x - cur, fl, ?_, hlen, hovl, by omega⟩
    rw [List.get?_drop, show cur + (x - cur) = x by omega]
    exact hget

/-! ## Structural lemmas about the sweep -/

theorem sweep_of_panicked (files : List TFile) (init : Nat → Bool) :
    ∀ (ps : List TPiece) (i cur : Nat) (m : RMaps) (rs : RunState),
      rs.panicked = true → (sweepPieces files init i ps cur m rs).2.1 = rs := by
  intro ps
  induction ps with
  | nil => intro i cur m rs _; rfl
  | cons p rest ih =>
    intro i cur m rs h
    rw [sweepPieces]
    split
    · rw [closeCh_of_panicked h] at *
      exact ih (i + 1) _ _ _ h
    · exact ih (i + 1) _ _ _ h

theorem sweep_trace_sub (files : List TFile) (init : Nat → Bool) :
    ∀ (ps : List TPiece) (i cur : Nat) (m : RMaps) (rs : RunState) (y : Sig),
      y ∈ rs.trace → y ∈ (sweepPieces files init i ps cur m rs).2.1.trace := by
  intro ps
  induction ps with
  | nil => intro i cur m rs y h; exact h
  | cons p rest ih =>
    intro i cur m rs y h
    rw [sweepPieces]
    split
    · exact ih (i + 1) _ _ _ _ (closeCh_trace_sub h)
    · exact ih (i + 1) _ _ _ _ h

theorem sweep_closedSet_sub (files : List TFile) (init : Nat → Bool) :
    ∀ (ps : List TPiece) (i cur : Nat) (m : RMaps) (rs : RunState) (y : Sig),
      y ∈ rs.closedSet → y ∈ (sweepPieces files init i ps cur m rs).2.1.closedSet := by
  intro ps
  induction ps with
  | nil => intro i cur m rs y h; exact h
  | cons p rest ih =>
    intro i cur m rs y h
    rw [sweepPieces]
    split
    · exact ih (i + 1) _ _ _ _ (closeCh_closedSet_sub h)
    · exact ih (i + 1) _ _ _ _ h

theorem sweep_trace_new (files : List TFile) (init : Nat → Bool) :
    ∀ (ps : List TPiece) (i cur : Nat) (m : RMaps) (rs : RunState) (y : Sig),
      y ∈ (sweepPieces files init i ps cur m rs).2.1.trace →
        y ∈ rs.trace ∨ ∃ r, r < ps.length ∧ y = .pieceDone (i + r) := by
  intro ps
  induction ps with
  | nil => intro i cur m rs y h; exact .inl h
  | cons p rest ih =>
    intro i cur m rs y h
    rw [sweepPieces] at h
    split at h
    · rcases ih (i + 1) _ _ _ _ h with h' | ⟨r, hr, rfl⟩
      · rcases mem_closeCh_trace h' with h'' | rfl
        · exact .inl h''
        · exact .inr ⟨0, by simp, by simp⟩
      · exact .inr ⟨r + 1, by simpa using hr, by rw [show i + (r + 1) = i + 1 + r by omega]⟩
    · rcases ih (i + 1) _ _ _ _ h with h' | ⟨r, hr, rfl⟩
      · exact .inl h'
      · exact .inr ⟨r + 1, by simpa using hr, by rw [show i + (r + 1) = i + 1 + r by omega]⟩

theorem sweep_closedSet_new (files : List TFile) (init : Nat → Bool) :
    ∀ (ps : List TPiece) (i cur : Nat) (m : RMaps) (rs : RunState) (y : Sig),
      y ∈ (sweepPieces files init i ps cur m rs).2.1.closedSet →
        y ∈ rs.closedSet ∨ ∃ r, r < ps.length ∧ y = .pieceDone (i + r) := by
  intro ps
  induction ps with
  | nil => intro i cur m rs y h; exact .inl h
  | cons p rest ih =>
    intro i cur m rs y h
    rw [sweepPieces] at h
    split at h
    · rcases ih (i + 1) _ _ _ _ h with h' | ⟨r, hr, rfl⟩
      · rcases mem_closeCh_closedSet h' with h'' | rfl
        · exact .inl h''
        · exact .inr ⟨0, by simp, by simp⟩
      · exact .inr ⟨r + 1, by simpa using hr, by rw [show i + (r + 1) = i + 1 + r by omega]⟩
    · rcases ih (i + 1) _ _ _ _ h with h' | ⟨r, hr, rfl⟩
      · exact .inl h'
      · exact .inr ⟨r + 1, by simpa using hr, by rw [show i + (r + 1) = i + 1 + r by omega]⟩

theorem sweep_panic_false (files : List TFile) (init : Nat → Bool) :
    ∀ (ps : List TPiece) (i cur : Nat) (m : RMaps) (rs : RunState),
      rs.panicked = false →
      (∀ r, r < ps.length → Sig.pieceDone (i + r) ∉ rs.closedSet) →
      (sweepPieces files init i ps cur m rs).2.1.panicked = false := by
  intro ps
  induction ps with
  | nil => intro i cur m rs h _; exact h
  | cons p rest ih =>
    intro i cur m rs h hnc
    rw [sweepPieces]
    split
    · refine ih (i + 1) _ _ _ ?_ ?_
      · rw [closeCh, if_neg (by simp [h]), if_neg (by simpa using hnc 0 (by simp))]
      · intro r hr hmem
        rcases mem_closeCh_closedSet hmem with h' | h'
        · exact hnc (r + 1) (by simpa using hr) (by rw [show i + (r + 1) = i + 1 + r by omega]; exact h')
        · simp only [Sig.pieceDone.injEq] at h'
          omega
    · refine ih (i + 1) _ _ _ h ?_
      intro r hr hmem
      exact hnc (r + 1) (by simpa using hr) (by rw [show i + (r + 1) = i + 1 + r by omega]; exact hmem)

theorem sweep_fpDom (files : List TFile) (init : Nat → Bool) :
    ∀ (ps : List TPiece) (i cur : Nat) (m : RMaps) (rs : RunState),
      (sweepPieces files init i ps cur m rs).1.fpDom = m.fpDom := by
  intro ps
  induction ps with
  | nil => intro i cur m rs; rfl
  | cons p rest ih =>
    intro i cur m rs
    rw [sweepPieces]
    split
    · exact ih (i + 1) _ _ _
    · exact ih (i + 1) _ _ _

/-- A file with no nonzero length at its index is never added to
`incompleteFilePieces` by the sweep. -/
theorem sweep_fp_zero (files : List TFile) (init : Nat → Bool) :
    ∀ (ps : List TPiece) (i cur : Nat) (m : RMaps) (rs : RunState) (f : Nat),
      (¬ ∃ fl, files.get? f = some fl ∧ fl.length ≠ 0) →
      (sweepPieces files init i ps cur m rs).1.fp f = m.fp f := by
  intro ps
  induction ps with
  | nil => intro i cur m rs f _; rfl
  | cons p rest ih =>
    intro i cur m rs f hf
    rw [sweepPieces]
    split
    · exact ih (i + 1) _ _ _ _ hf
    · rw [ih (i + 1) _ _ _ _ hf]
      simp only
      rw [if_neg]
      intro hmem
      rcases (scanFiles_mem _ _ _ _ _).mp hmem with ⟨_, fl, hget, hlen, _⟩
      exact hf ⟨fl, hget, hlen⟩

/-- Pieces recorded in a file's incomplete set by the sweep are new, have
nonzero length and were not complete at construction. -/
theorem sweep_fp_new (files : List TFile) (init : Nat → Bool) :
    ∀ (ps : List TPiece) (i cur : Nat) (m : RMaps) (rs : RunState) (f j : Nat),
      j ∈ (sweepPieces files init i ps cur m rs).1.fp f →
      j ∈ m.fp f ∨ ∃ r p, r < ps.length ∧ j = i + r ∧ ps.get? r = some p ∧
        p.length ≠ 0 ∧ init j = false := by
  intro ps
  induction ps with
  | nil => intro i cur m rs f j h; exact .inl h
  | cons p rest ih =>
    intro i cur m rs f j h
    rw [sweepPieces] at h
    by_cases hcond : p.length = 0 ∨ init i = true
    · rw [if_pos hcond] at h
      rcases ih (i + 1) _ _ _ _ _ h with h' | ⟨r, q, hr, rfl, hget, hlen, hinit⟩
      · exact .inl h'
      · exact .inr ⟨r + 1, q, by simpa using hr, by omega, by simpa using hget, hlen, hinit⟩
    · rw [if_neg hcond] at h
      rcases ih (i + 1) _ _ _ _ _ h with h' | ⟨r, q, hr, rfl, hget, hlen, hinit⟩
      · simp only at h'
        split at h'
        · rcases List.mem_insert_iff.mp h' with rfl | h''
          · push_neg at hcond
            exact .inr ⟨0, p, by simp, by omega, by simp, hcond.1, by simpa using hcond.2⟩
          · exact .inl h''
        · exact .inl h'
      · exact .inr ⟨r + 1, q, by simpa using hr, by omega, by simpa using hget, hlen, hinit⟩

/-- One-directional symmetry of the two maps after the sweep: a piece in a
file's incomplete set lists that file among its incomplete files. -/
theorem sweep_sym (files : List TFile) (init : Nat → Bool) :
    ∀ (ps : List TPiece) (i cur : Nat) (m : RMaps) (rs : RunState),
      (∀ f j, j ∈ m.fp f → j < i ∧ f ∈ m.pf j) →
      ∀ f j, j ∈ (sweepPieces files init i ps cur m rs).1.fp f →
        j < i + ps.length ∧ f ∈ (sweepPieces files init i ps cur m rs).1.pf j := by
  intro ps
  induction ps with
  | nil =>
    intro i cur m rs hm f j h
    have := hm f j h
    exact ⟨by omega, this.2⟩
  | cons p rest ih =>
    intro i cur m rs hm f j h
    have hlen : i + (p :: rest).length = (i + 1) + rest.length := by simp; omega
    rw [sweepPieces] at h ⊢
    by_cases hcond : p.length = 0 ∨ init i = true
    · rw [if_pos hcond] at h ⊢
      rw [hlen]
      exact ih (i + 1) _ _ _ (fun f j hj => by
        have := hm f j hj
        exact ⟨by omega, this.2⟩) f j h
    · rw [if_neg hcond] at h ⊢
      rw [hlen]
      refine ih (i + 1) _ _ _ ?_ f j h
      intro f' j' hj'
      simp only at hj'
      split at hj' <;> rename_i hmem
      · rcases List.mem_insert_iff.mp hj' with rfl | h''
        · refine ⟨by omega, ?_⟩
          simpa using hmem
        · have := hm f' j' h''
          refine ⟨by omega, ?_⟩
          simp only
          rw [if_neg (by omega)]
          exact this.2
      · have := hm f' j' hj'
        refine ⟨by omega, ?_⟩
        simp only
        rw [if_neg (by omega)]
        exact this.2

/-- Every skipped piece (zero length or already complete) has its `pieceDone`
channel closed by the sweep. -/
theorem sweep_skipped_mem_trace (files : List TFile) (init : Nat → Bool) :
    ∀ (ps : List TPiece) (i cur : Nat) (m : RMaps) (rs : RunState),
      rs.panicked = false →
      (∀ r, r < ps.length → Sig.pieceDone (i + r) ∉ rs.closedSet) →
      ∀ r, r < ps.length → ∀ p, ps.get? r = some p →
        (p.length = 0 ∨ init (i + r) = true) →
        Sig.pieceDone (i + r) ∈ (sweepPieces files init i ps cur m rs).2.1.trace := by
  intro ps
  induction ps with
  | nil => intro i cur m rs _ _ r hr; simp at hr
  | cons p rest ih =>
    intro i cur m rs hp hnc r hr q hget hskip
    match r, hget with
    | 0, hget =>
      simp only [List.get?_cons_zero, Option.some.injEq] at hget
      subst hget
      rw [sweepPieces]
      rw [if_pos (by simpa using hskip)]
      refine sweep_trace_sub files init rest (i + 1) _ _ _ _ ?_
      simpa using mem_trace_closeCh_self hp (by simpa using hnc 0 (by simp))
    | r + 1, hget =>
      simp only [List.get?_cons_succ] at hget
      rw [sweepPieces]
      split <;> rename_i hcond
      · rw [show i + (r + 1) = (i + 1) + r by omega]
        refine ih (i + 1) _ _ _ ?_ ?_ r (by simpa using hr) q hget ?_
        · rw [closeCh, if_neg (by simp [hp]), if_neg (by simpa using hnc 0 (by simp))]
        · intro r' hr' hmem
          rcases mem_closeCh_closedSet hmem with h' | h'
          · exact hnc (r' + 1) (by simpa using hr') (by rw [show i + (r' + 1) = i + 1 + r' by omega]; exact h')
          · simp only [Sig.pieceDone.injEq] at h'
            omega
        · rw [show i + 1 + r = i + (r + 1) by omega]
          exact hskip
      · rw [show i + (r + 1) = (i + 1) + r by omega]
        refine ih (i + 1) _ _ _ hp ?_ r (by simpa using hr) q hget ?_
        · intro r' hr' hmem
          exact hnc (r' + 1) (by simpa using hr') (by rw [show i + (r' + 1) = i + 1 + r' by omega]; exact hmem)
        · rw [show i + 1 + r = i + (r + 1) by omega]
          exact hskip

/-! ## Structural lemmas about the already-complete-file pass -/

theorem ccf_zero (m : RMaps) (rs : RunState) : checkCompleteFiles 0 m rs = (m, rs) := rfl

theorem ccf_succ (n : Nat) (m : RMaps) (rs : RunState) :
    checkCompleteFiles (n + 1) m rs =
      (if n ∈ (checkCompleteFiles n m rs).1.fpDom ∧ (checkCompleteFiles n m rs).1.fp n = [] then
        ({ (checkCompleteFiles n m rs).1 with
            fpDom := eraseAll (checkCompleteFiles n m rs).1.fpDom n
            fp := fun x => if x = n then [] else (checkCompleteFiles n m rs).1.fp x },
          closeCh (checkCompleteFiles n m rs).2 (.fileDone n))
      else checkCompleteFiles n m rs) := by
  rw [checkCompleteFiles, List.range_succ, List.foldl_append]
  rfl

theorem ccf_pf (n : Nat) (m : RMaps) (rs : RunState) :
    (checkCompleteFiles n m rs).1.pf = m.pf ∧ (checkCompleteFiles n m rs).1.pfDom = m.pfDom := by
  induction n with
  | zero => exact ⟨rfl, rfl⟩
  | succ n ih =>
    rw [ccf_succ]
    split
    · exact ih
    · exact ih

theorem ccf_fp_ge (n : Nat) (m : RMaps) (rs : RunState) :
    ∀ g, n ≤ g → (checkCompleteFiles n m rs).1.fp g = m.fp g ∧
      (g ∈ (checkCompleteFiles n m rs).1.fpDom ↔ g ∈ m.fpDom) := by
  induction n with
  | zero => intro g _; exact ⟨rfl, Iff.rfl⟩
  | succ n ih =>
    intro g hg
    rw [ccf_succ]
    split
    · have h := ih g (by omega)
      refine ⟨?_, ?_⟩
      · simp only
        rw [if_neg (by omega)]
        exact h.1
      · simp only [mem_eraseAll]
        constructor
        · intro hx; exact h.2.mp hx.1
        · intro hx; exact ⟨h.2.mpr hx, by omega⟩
    · exact ih g (by omega)

theorem ccf_fp_lt (n : Nat) (m : RMaps) (rs : RunState) :
    ∀ g, g < n →
      (g ∈ m.fpDom → m.fp g = ∅ →
        (checkCompleteFiles n m rs).1.fp g = ∅ ∧ g ∉ (checkCompleteFiles n m rs).1.fpDom) ∧
      (¬(g ∈ m.fpDom ∧ m.fp g = ∅) →
        (checkCompleteFiles n m rs).1.fp g = m.fp g ∧
          (g ∈ (checkCompleteFiles n m rs).1.fpDom ↔ g ∈ m.fpDom)) := by
  induction n with
  | zero => intro g hg; omega
  | succ n ih =>
    intro g hg
    rw [ccf_succ]
    rcases Nat.lt_or_ge g n with hlt | hge
    · split
      · refine ⟨fun hdom hemp => ?_, fun hne => ?_⟩
        · have h := (ih g hlt).1 hdom hemp
          refine ⟨?_, ?_⟩
          · simp only
            rw [if_neg (by omega)]
            exact h.1
          · simp only [mem_eraseAll]
            intro hx
            exact h.2 hx.1
        · have h := (ih g hlt).2 hne
          refine ⟨?_, ?_⟩
          · simp only
            rw [if_neg (by omega)]
            exact h.1
          · simp only [mem_eraseAll]
            constructor
            · intro hx; exact h.2.mp hx.1
            · intro hx; exact ⟨h.2.mpr hx, by omega⟩
      · exact ih g hlt
    · have hgn : g = n := by omega
      subst hgn
      have hbase := ccf_fp_ge g m rs g (by omega)
      split <;> rename_i hcond
      · refine ⟨fun hdom hemp => ?_, fun hne => ?_⟩
        · exact ⟨by simp, by simp [mem_eraseAll]⟩
        · exfalso
          exact hne ⟨hbase.2.mp hcond.1, hbase.1 ▸ hcond.2⟩
      · refine ⟨fun hdom hemp => ?_, fun hne => ?_⟩
        · exfalso
          exact hcond ⟨hbase.2.mpr hdom, hbase.1 ▸ hemp⟩
        · exact hbase

theorem ccf_trace_sub (n : Nat) (m : RMaps) (rs : RunState) (y : Sig) (h : y ∈ rs.trace) :
    y ∈ (checkCompleteFiles n m rs).2.trace := by
  induction n with
  | zero => exact h
  | succ n ih =>
    rw [ccf_succ]
    split
    · exact closeCh_trace_sub ih
    · exact ih

theorem ccf_trace_new (n : Nat) (m : RMaps) (rs : RunState) (y : Sig)
    (h : y ∈ (checkCompleteFiles n m rs).2.trace) :
    y ∈ rs.trace ∨ ∃ g, g < n ∧ y = .fileDone g := by
  induction n with
  | zero => exact .inl h
  | succ n ih =>
    rw [ccf_succ] at h
    split at h
    · rcases mem_closeCh_trace h with h' | rfl
      · rcases ih h' with h'' | ⟨g, hg, rfl⟩
        · exact .inl h''
        · exact .inr ⟨g, by omega, rfl⟩
      · exact .inr ⟨n, by omega, rfl⟩
    · rcases ih h with h'' | ⟨g, hg, rfl⟩
      · exact .inl h''
      · exact .inr ⟨g, by omega, rfl⟩

theorem ccf_closedSet_new (n : Nat) (m : RMaps) (rs : RunState) (y : Sig)
    (h : y ∈ (checkCompleteFiles n m rs).2.closedSet) :
    y ∈ rs.closedSet ∨ ∃ g, g < n ∧ y = .fileDone g := by
  induction n with
  | zero => exact .inl h
  | succ n ih =>
    rw [ccf_succ] at h
    split at h
    · rcases mem_closeCh_closedSet h with h' | rfl
      · rcases ih h' with h'' | ⟨g, hg, rfl⟩
        · exact .inl h''
        · exact .inr ⟨g, by omega, rfl⟩
      · exact .inr ⟨n, by omega, rfl⟩
    · rcases ih h with h'' | ⟨g, hg, rfl⟩
      · exact .inl h''
      · exact .inr ⟨g, by omega, rfl⟩

theorem ccf_panic_false (n : Nat) (m : RMaps) (rs : RunState)
    (hp : rs.panicked = false) (hnc : ∀ g, g < n → Sig.fileDone g ∉ rs.closedSet) :
    (checkCompleteFiles n m rs).2.panicked = false := by
  revert hp hnc
  induction n with
  | zero => intro hp _; exact hp
  | succ n ih =>
    intro hp hnc
    rw [ccf_succ]
    have ih' := ih hp (fun g hg => hnc g (by omega))
    split
    · rw [closeCh, if_neg (by simp [ih']), if_neg ?_]
      intro hmem
      rcases ccf_closedSet_new n m rs _ hmem with h' | ⟨g, hg, heq⟩
      · exact hnc n (by omega) h'
      · simp only [Sig.fileDone.injEq] at heq
        omega
    · exact ih'

theorem ccf_complete_mem_trace (n : Nat) (m : RMaps) (rs : RunState)
    (hp : rs.panicked = false) (hnc : ∀ g, g < n → Sig.fileDone g ∉ rs.closedSet) :
    ∀ g, g < n → g ∈ m.fpDom → m.fp g = ∅ →
      Sig.fileDone g ∈ (checkCompleteFiles n m rs).2.trace := by
  revert hp hnc
  induction n with
  | zero => intro _ _ g hg; omega
  | succ n ih =>
    intro hp hnc g hg hdom hemp
    rw [ccf_succ]
    rcases Nat.lt_or_ge g n with hlt | hge
    · have h := ih hp (fun g' hg' => hnc g' (by omega)) g hlt hdom hemp
      split
      · exact closeCh_trace_sub h
      · exact h
    · have hgn : g = n := by omega
      subst hgn
      have hbase := ccf_fp_ge g m rs g (by omega)
      rw [if_pos ⟨hbase.2.mpr hdom, hbase.1 ▸ hemp⟩]
      refine mem_trace_closeCh_self ?_ ?_
      · exact ccf_panic_false g m rs hp (fun g' hg' => hnc g' (by omega))
      · intro hmem
        rcases ccf_closedSet_new g m rs _ hmem with h' | ⟨g', hg', heq⟩
        · exact hnc g (by omega) h'
        · simp only [Sig.fileDone.injEq] at heq
          omega

/-! ## C7: closes performed during tracker initialization -/

theorem runInit_base_panic (t : TInput) :
    (closeCh (closeCh RunState.init .added) .gotInfo).panicked = false := by decide

theorem runInit_sweep_panic_false (t : TInput) :
    (sweepPieces t.files t.initComplete 0 t.pieces 0 (RMaps.init t.files.length)
      (closeCh (closeCh RunState.init .added) .gotInfo)).2.1.panicked = false := by
  refine sweep_panic_false _ _ _ _ _ _ _ (by decide) ?_
  intro r _
  show Sig.pieceDone (0 + r) ∉ [Sig.gotInfo, Sig.added]
  simp

theorem runInit_sweep_fileDone_not_closed (t : TInput) (g : Nat) :
    Sig.fileDone g ∉ (sweepPieces t.files t.initComplete 0 t.pieces 0
      (RMaps.init t.files.length) (closeCh (closeCh RunState.init .added) .gotInfo)).2.1.closedSet := by
  intro hmem
  rcases sweep_closedSet_new _ _ _ _ _ _ _ _ hmem with h | ⟨r, _, heq⟩
  · rw [show (closeCh (closeCh RunState.init Sig.added) Sig.gotInfo).closedSet =
        [Sig.gotInfo, Sig.added] by decide] at h
    simp at h
  · exact Sig.noConfusion heq

/-- **C7.** During tracker initialization — after metadata arrives and before
any notification is consumed from the piece feed (`runInit` is exactly that
segment of the worker) — the completion signal of every zero-length file is
closed, and the `PieceDone` signal of every piece already reported complete or
of zero length is closed. -/
theorem C7_init_closes_trivial (t : TInput) :
    (∀ f fl, t.files.get? f = some fl → fl.length = 0 →
      Sig.fileDone f ∈ (runInit t).2.trace) ∧
    (∀ i p, t.pieces.get? i = some p → (p.length = 0 ∨ t.initComplete i = true) →
      Sig.pieceDone i ∈ (runInit t).2.trace) := by
  constructor
  · intro f fl hget hlen
    unfold runInit
    refine ccf_complete_mem_trace _ _ _ (runInit_sweep_panic_false t)
      (fun g _ => runInit_sweep_fileDone_not_closed t g) f ?_ ?_ ?_
    · have := List.get?_eq_some.mp hget
      exact this.1
    · rw [sweep_fpDom]
      exact List.mem_range.mpr (List.get?_eq_some.mp hget).1
    · rw [sweep_fp_zero]
      · rfl
      · rintro ⟨fl', hget', hlen'⟩
        rw [hget] at hget'
        exact hlen' (by injection hget' with h; rw [← h]; exact hlen)
  · intro i p hget hskip
    unfold runInit
    refine ccf_trace_sub _ _ _ _ ?_
    have := sweep_skipped_mem_trace t.files t.initComplete t.pieces 0 0
      (RMaps.init t.files.length) (closeCh (closeCh RunState.init .added) .gotInfo)
      (by decide) (fun r _ => by show Sig.pieceDone (0 + r) ∉ [Sig.gotInfo, Sig.added]; simp)
      i (List.get?_eq_some.mp hget).1 p hget (by simpa using hskip)
    simpa using this

/-- Concrete transfer for the C7 witness: file 1 has length 0, piece 0 is
already complete at construction. -/
def c7input : TInput :=
  { files := [⟨0, 10⟩, ⟨10, 0⟩, ⟨10, 10⟩]
    pieces := [⟨0, 10⟩, ⟨10, 10⟩]
    infoBeforeClosed := true
    initComplete := fun i => i = 0
    feed := []
    missing0 := fun _ => false
    seedImmediate := true
    seedMet := false }

theorem C7_init_closes_trivial_witness :
    Sig.fileDone 1 ∈ (runInit c7input).2.trace ∧
    Sig.pieceDone 0 ∈ (runInit c7input).2.trace :=
  ⟨(C7_init_closes_trivial c7input).1 1 ⟨10, 0⟩ rfl rfl,
   (C7_init_closes_trivial c7input).2 0 ⟨0, 10⟩ rfl (.inr (by decide))⟩

/-! ## C4: a re-delivered completion notification reaches a second close -/

/-- Torrent with two nonzero pieces and files; piece 0 is already complete
when the sweep inspects `PieceState(0)`, and the feed re-delivers the
completion notification for piece 0 (the subscription is set up before the
state inspection precisely so that such a racing notification is not lost). -/
def c4input : TInput :=
  { files := [⟨0, 10⟩, ⟨10, 10⟩]
    pieces := [⟨0, 10⟩, ⟨10, 10⟩]
    infoBeforeClosed := true
    initComplete := fun i => i = 0
    feed := [(0, true), (1, true)]
    missing0 := fun _ => false
    seedImmediate := true
    seedMet := false }

/-- **C4.** The worker closes `pieceDone[0]` during the sweep (piece already
complete), and then reaches `close(e.pieceDone[psc.Index])` again for the
re-delivered notification: the close of an already-closed signal IS reached —
in Go, a `close of closed channel` runtime panic. -/
theorem C4_duplicate_notification_double_close :
    Sig.pieceDone 0 ∈ (runModel c4input).trace ∧ (runModel c4input).panicked = true := by
  constructor
  · decide
  · decide

/-! ## C1, counterexample part: `BytesMissing()` can reach zero while
notifications are still queued -/

/-- Two files, one piece each; both pieces complete on disk (so
`BytesMissing()` returns 0) but only piece 0's notification has been consumed
when the worker queries it. -/
def c1input : TInput :=
  { files := [⟨0, 10⟩, ⟨10, 10⟩]
    pieces := [⟨0, 10⟩, ⟨10, 10⟩]
    infoBeforeClosed := true
    initComplete := fun _ => false
    feed := [(0, true)]
    missing0 := fun k => k ≥ 1
    seedImmediate := true
    seedMet := false }

/-- **C1, counterexample.** In this interleaving of the piece feed the worker
closes `downloadDone` (and runs to completion without panicking) while
`fileDone[1]` is never closed: `DownloadDone` closes although a file's
completion signal is still open, refuting the claim as stated. -/
theorem C1_counterexample_download_before_file :
    Sig.downloadDone ∈ (runModel c1input).trace ∧
    Sig.fileDone 1 ∉ (runModel c1input).trace ∧
    (runModel c1input).panicked = false := by
  refine ⟨by decide, by decide, by decide⟩

/-! ## C1, amended part: the loop invariant machinery -/

theorem closeCh_trace_exists (s : RunState) (x : Sig) :
    ∃ l, (closeCh s x).trace = s.trace ++ l ∧ ∀ y ∈ l, y = x := by
  unfold closeCh
  split
  · exact ⟨[], by simp⟩
  · split
    · exact ⟨[], by simp⟩
    · exact ⟨[x], by simp⟩

theorem closeCh_panicked_rev {s : RunState} {x : Sig}
    (h : (closeCh s x).panicked = false) : s.panicked = false := by
  by_contra hc
  rw [closeCh_of_panicked (by simpa using hc)] at h
  simp_all

theorem precedes_of_not_mem {α : Type} {x y : α} {d : List α} (h : y ∉ d) :
    Precedes x y d := by
  intro i j _ hj
  exact absurd (List.get?_mem hj) h

theorem seedPhase_trace (t : TInput) (rs : RunState) :
    ∃ L, (seedPhase t rs).trace = rs.trace ++ L ∧
      ∀ y ∈ L, y = Sig.seedingDone ∨ y = Sig.closedSig := by
  unfold seedPhase
  split
  · obtain ⟨l1, h1, hl1⟩ := closeCh_trace_exists rs .seedingDone
    obtain ⟨l2, h2, hl2⟩ := closeCh_trace_exists (closeCh rs .seedingDone) .closedSig
    refine ⟨l1 ++ l2, by rw [h2, h1, List.append_assoc], ?_⟩
    intro y hy
    rcases List.mem_append.mp hy with h | h
    · exact .inl (hl1 y h)
    · exact .inr (hl2 y h)
  · split
    · obtain ⟨l1, h1, hl1⟩ := closeCh_trace_exists rs .seedingDone
      obtain ⟨l2, h2, hl2⟩ := closeCh_trace_exists (closeCh rs .seedingDone) .closedSig
      refine ⟨l1 ++ l2, by rw [h2, h1, List.append_assoc], ?_⟩
      intro y hy
      rcases List.mem_append.mp hy with h | h
      · exact .inl (hl1 y h)
      · exact .inr (hl2 y h)
    · obtain ⟨l, h, hl⟩ := closeCh_trace_exists rs .closedSig
      exact ⟨l, h, fun y hy => .inr (hl y hy)⟩

/-- A piece index that takes part in the download: nonzero length and not
complete at tracker construction. -/
def relevantPiece (t : TInput) (j : Nat) : Prop :=
  ∃ p, t.pieces.get? j = some p ∧ p.length ≠ 0 ∧ t.initComplete j = false

/-- The completion notification for piece `j` is among the first `k` consumed
feed values. -/
def notifiedBy (feed : List (Nat × Bool)) (k j : Nat) : Prop :=
  ∃ r, r < k ∧ feed.get? r = some (j, true)

/-- Every file is either already closed or still tracked with a nonempty
incomplete-piece set. -/
def PFiles (t : TInput) (m : RMaps) (rs : RunState) : Prop :=
  ∀ f, f < t.files.length → Sig.fileDone f ∈ rs.trace ∨ (f ∈ m.fpDom ∧ m.fp f ≠ [])

/-- A piece in a file's incomplete set lists the file among its files. -/
def SymMaps (m : RMaps) : Prop :=
  ∀ f j, j ∈ m.fp f → f ∈ m.pf j

/-- Every tracked incomplete piece is relevant and not yet notified. -/
def RelMaps (t : TInput) (k : Nat) (m : RMaps) : Prop :=
  ∀ f j, j ∈ m.fp f → relevantPiece t j ∧ ¬ notifiedBy t.feed k j

/-- Invariant of the feed-consumption loop after `k` consumed notifications:
`downloadDone` has not closed, and — unless a double close already panicked
the worker — it is not in the closed set either, every file is closed or
still tracked, and the maps are symmetric and track only relevant,
un-notified pieces. -/
def LoopInv (t : TInput) (k : Nat) (m : RMaps) (rs : RunState) : Prop :=
  Sig.downloadDone ∉ rs.trace ∧
    (rs.panicked = true ∨
      (Sig.downloadDone ∉ rs.closedSet ∧ PFiles t m rs ∧ SymMaps m ∧ RelMaps t k m))

theorem ccf_fp_sub (n : Nat) (m : RMaps) (rs : RunState) (g j : Nat)
    (h : j ∈ (checkCompleteFiles n m rs).1.fp g) : j ∈ m.fp g := by
  rcases Nat.lt_or_ge g n with hlt | hge
  · by_cases hc : g ∈ m.fpDom ∧ m.fp g = []
    · have := ((ccf_fp_lt n m rs g hlt).1 hc.1 hc.2).1
      rw [this] at h
      simp at h
    · rw [((ccf_fp_lt n m rs g hlt).2 hc).1] at h
      exact h
  · rw [(ccf_fp_ge n m rs g hge).1] at h
    exact h

theorem ccf_dom_sub (n : Nat) (m : RMaps) (rs : RunState) (g : Nat)
    (h : g ∈ (checkCompleteFiles n m rs).1.fpDom) : g ∈ m.fpDom := by
  rcases Nat.lt_or_ge g n with hlt | hge
  · by_cases hc : g ∈ m.fpDom ∧ m.fp g = []
    · exact absurd h ((ccf_fp_lt n m rs g hlt).1 hc.1 hc.2).2
    · exact (((ccf_fp_lt n m rs g hlt).2 hc).2).mp h
  · exact ((ccf_fp_ge n m rs g hge).2).mp h

theorem runInit_panic_false (t : TInput) : (runInit t).2.panicked = false := by
  unfold runInit
  exact ccf_panic_false _ _ _ (runInit_sweep_panic_false t)
    (fun g _ => runInit_sweep_fileDone_not_closed t g)

theorem runInit_trace_new (t : TInput) (y : Sig) (h : y ∈ (runInit t).2.trace) :
    y = .added ∨ y = .gotInfo ∨ (∃ i, y = .pieceDone i) ∨ (∃ f, y = .fileDone f) := by
  unfold runInit at h
  rcases ccf_trace_new _ _ _ _ h with h' | ⟨g, _, rfl⟩
  · rcases sweep_trace_new _ _ _ _ _ _ _ _ h' with h'' | ⟨r, _, rfl⟩
    · rw [show (closeCh (closeCh RunState.init Sig.added) Sig.gotInfo).trace =
          [Sig.added, Sig.gotInfo] by decide] at h''
      simp only [List.mem_cons, List.not_mem_nil, or_false] at h''
      rcases h'' with h3 | h3
      · exact .inl h3
      · exact .inr (.inl h3)
    · exact .inr (.inr (.inl ⟨_, rfl⟩))
  · exact .inr (.inr (.inr ⟨g, rfl⟩))

theorem runInit_closedSet_new (t : TInput) (y : Sig) (h : y ∈ (runInit t).2.closedSet) :
    y = .added ∨ y = .gotInfo ∨ (∃ i, y = .pieceDone i) ∨ (∃ f, y = .fileDone f) := by
  unfold runInit at h
  rcases ccf_closedSet_new _ _ _ _ h with h' | ⟨g, _, rfl⟩
  · rcases sweep_closedSet_new _ _ _ _ _ _ _ _ h' with h'' | ⟨r, _, rfl⟩
    · rw [show (closeCh (closeCh RunState.init Sig.added) Sig.gotInfo).closedSet =
          [Sig.gotInfo, Sig.added] by decide] at h''
      simp only [List.mem_cons, List.not_mem_nil, or_false] at h''
      rcases h'' with h3 | h3
      · exact .inr (.inl h3)
      · exact .inl h3
    · exact .inr (.inr (.inl ⟨_, rfl⟩))
  · exact .inr (.inr (.inr ⟨g, rfl⟩))

theorem runInit_PFiles (t : TInput) : PFiles t (runInit t).1 (runInit t).2 := by
  intro f hf
  have hdom : f ∈ (sweepPieces t.files t.initComplete 0 t.pieces 0 (RMaps.init t.files.length)
      (closeCh (closeCh RunState.init .added) .gotInfo)).1.fpDom := by
    rw [sweep_fpDom]
    exact List.mem_range.mpr hf
  by_cases hemp : (sweepPieces t.files t.initComplete 0 t.pieces 0 (RMaps.init t.files.length)
      (closeCh (closeCh RunState.init .added) .gotInfo)).1.fp f = []
  · left
    unfold runInit
    exact ccf_complete_mem_trace _ _ _ (runInit_sweep_panic_false t)
      (fun g _ => runInit_sweep_fileDone_not_closed t g) f hf hdom hemp
  · right
    unfold runInit
    have h2 := (ccf_fp_lt t.files.length _
      (sweepPieces t.files t.initComplete 0 t.pieces 0 (RMaps.init t.files.length)
        (closeCh (closeCh RunState.init .added) .gotInfo)).2.1 f hf).2
      (fun hc => hemp hc.2)
    exact ⟨h2.2.mpr hdom, h2.1 ▸ hemp⟩

theorem runInit_Sym (t : TInput) : SymMaps (runInit t).1 := by
  intro f j hj
  unfold runInit at hj ⊢
  have hj' := ccf_fp_sub _ _ _ _ _ hj
  have hs := sweep_sym t.files t.initComplete t.pieces 0 0 (RMaps.init t.files.length)
    (closeCh (closeCh RunState.init .added) .gotInfo) (fun f j hj => by simp [RMaps.init] at hj)
    f j hj'
  rw [(ccf_pf _ _ _).1]
  exact hs.2

theorem runInit_Rel (t : TInput) : RelMaps t 0 (runInit t).1 := by
  intro f j hj
  have hj' := ccf_fp_sub _ _ _ _ _ hj
  rcases sweep_fp_new _ _ _ _ _ _ _ _ _ hj' with h | ⟨r, p, _, rfl, hget, hlen, hinit⟩
  · simp [RMaps.init] at h
  · constructor
    · exact ⟨p, by simpa using hget, hlen, hinit⟩
    · rintro ⟨r', hr', _⟩
      omega

theorem runInit_fpDom_lt (t : TInput) (f : Nat) (h : f ∈ (runInit t).1.fpDom) :
    f < t.files.length := by
  unfold runInit at h
  have := ccf_dom_sub _ _ _ _ h
  rw [sweep_fpDom] at this
  exact List.mem_range.mp this

theorem runInit_LoopInv (t : TInput) : LoopInv t 0 (runInit t).1 (runInit t).2 := by
  constructor
  · intro h
    rcases runInit_trace_new t _ h with h | h | ⟨i, h⟩ | ⟨f, h⟩ <;> exact Sig.noConfusion h
  · right
    refine ⟨?_, runInit_PFiles t, runInit_Sym t, runInit_Rel t⟩
    intro h
    rcases runInit_closedSet_new t _ h with h | h | ⟨i, h⟩ | ⟨f, h⟩ <;> exact Sig.noConfusion h

theorem cap_succ (n : Nat) (mrs : RMaps × RunState) :
    closeAllPieces (n + 1) mrs =
      (if n ∈ (closeAllPieces n mrs).1.pfDom then
        ({ (closeAllPieces n mrs).1 with
            pfDom := eraseAll (closeAllPieces n mrs).1.pfDom n
            pf := fun x => if x = n then [] else (closeAllPieces n mrs).1.pf x },
          closeCh (closeAllPieces n mrs).2 (.pieceDone n))
      else closeAllPieces n mrs) := by
  rw [closeAllPieces, List.range_succ, List.foldl_append]
  rfl

theorem cap_fp (n : Nat) (mrs : RMaps × RunState) :
    (closeAllPieces n mrs).1.fp = mrs.1.fp ∧ (closeAllPieces n mrs).1.fpDom = mrs.1.fpDom := by
  induction n with
  | zero => exact ⟨rfl, rfl⟩
  | succ n ih => rw [cap_succ]; split; exacts [ih, ih]

theorem cap_trace_ex (n : Nat) (mrs : RMaps × RunState) :
    ∃ l, (closeAllPieces n mrs).2.trace = mrs.2.trace ++ l ∧
      ∀ y ∈ l, ∃ i, y = Sig.pieceDone i := by
  induction n with
  | zero => exact ⟨[], by simp [closeAllPieces]⟩
  | succ n ih =>
    obtain ⟨l, hl, hly⟩ := ih
    rw [cap_succ]
    split
    · obtain ⟨l2, hl2, hly2⟩ := closeCh_trace_exists (closeAllPieces n mrs).2 (.pieceDone n)
      refine ⟨l ++ l2, by rw [hl2, hl, List.append_assoc], ?_⟩
      intro y hy
      rcases List.mem_append.mp hy with h | h
      · exact hly y h
      · exact ⟨n, hly2 y h⟩
    · exact ⟨l, hl, hly⟩

theorem cap_closedSet_new (n : Nat) (mrs : RMaps × RunState) (y : Sig)
    (h : y ∈ (closeAllPieces n mrs).2.closedSet) :
    y ∈ mrs.2.closedSet ∨ ∃ i, y = Sig.pieceDone i := by
  induction n with
  | zero => exact .inl h
  | succ n ih =>
    rw [cap_succ] at h
    split at h
    · rcases mem_closeCh_closedSet h with h' | rfl
      · exact ih h'
      · exact .inr ⟨n, rfl⟩
    · exact ih h

theorem cap_panic_rev (n : Nat) (mrs : RMaps × RunState)
    (h : (closeAllPieces n mrs).2.panicked = false) : mrs.2.panicked = false := by
  induction n with
  | zero => exact h
  | succ n ih =>
    rw [cap_succ] at h
    split at h
    · exact ih (closeCh_panicked_rev h)
    · exact ih h

theorem caf_succ (n : Nat) (mrs : RMaps × RunState) :
    closeAllFiles (n + 1) mrs =
      (if n ∈ (closeAllFiles n mrs).1.fpDom then
        ({ (closeAllFiles n mrs).1 with
            fpDom := eraseAll (closeAllFiles n mrs).1.fpDom n
            fp := fun x => if x = n then [] else (closeAllFiles n mrs).1.fp x },
          closeCh (closeAllFiles n mrs).2 (.fileDone n))
      else closeAllFiles n mrs) := by
  rw [closeAllFiles, List.range_succ, List.foldl_append]
  rfl

theorem caf_trace_ex (n : Nat) (mrs : RMaps × RunState) :
    ∃ l, (closeAllFiles n mrs).2.trace = mrs.2.trace ++ l ∧
      ∀ y ∈ l, ∃ g, y = Sig.fileDone g := by
  induction n with
  | zero => exact ⟨[], by simp [closeAllFiles]⟩
  | succ n ih =>
    obtain ⟨l, hl, hly⟩ := ih
    rw [caf_succ]
    split
    · obtain ⟨l2, hl2, hly2⟩ := closeCh_trace_exists (closeAllFiles n mrs).2 (.fileDone n)
      refine ⟨l ++ l2, by rw [hl2, hl, List.append_assoc], ?_⟩
      intro y hy
      rcases List.mem_append.mp hy with h | h
      · exact hly y h
      · exact ⟨n, hly2 y h⟩
    · exact ⟨l, hl, hly⟩

theorem caf_closedSet_new (n : Nat) (mrs : RMaps × RunState) (y : Sig)
    (h : y ∈ (closeAllFiles n mrs).2.closedSet) :
    y ∈ mrs.2.closedSet ∨ ∃ g, y = Sig.fileDone g := by
  induction n with
  | zero => exact .inl h
  | succ n ih =>
    rw [caf_succ] at h
    split at h
    · rcases mem_closeCh_closedSet h with h' | rfl
      · exact ih h'
      · exact .inr ⟨n, rfl⟩
    · exact ih h

theorem caf_panic_rev (n : Nat) (mrs : RMaps × RunState)
    (h : (closeAllFiles n mrs).2.panicked = false) : mrs.2.panicked = false := by
  induction n with
  | zero => exact h
  | succ n ih =>
    rw [caf_succ] at h
    split at h
    · exact ih (closeCh_panicked_rev h)
    · exact ih h

theorem caf_dom_ge (n : Nat) (mrs : RMaps × RunState) :
    ∀ g, n ≤ g → (g ∈ (closeAllFiles n mrs).1.fpDom ↔ g ∈ mrs.1.fpDom) := by
  induction n with
  | zero => intro g _; exact Iff.rfl
  | succ n ih =>
    intro g hg
    rw [caf_succ]
    split
    · simp only [mem_eraseAll]
      constructor
      · intro hx; exact (ih g (by omega)).mp hx.1
      · intro hx; exact ⟨(ih g (by omega)).mpr hx, by omega⟩
    · exact ih g (by omega)

theorem caf_mem (n : Nat) (mrs : RMaps × RunState)
    (h : (closeAllFiles n mrs).2.panicked = false) :
    ∀ f, f < n → f ∈ mrs.1.fpDom → Sig.fileDone f ∈ (closeAllFiles n mrs).2.trace := by
  induction n with
  | zero => intro f hf; omega
  | succ n ih =>
    intro f hf hdom
    have hpn : (closeAllFiles n mrs).2.panicked = false := by
      rw [caf_succ] at h
      split at h
      · exact closeCh_panicked_rev h
      · exact h
    rw [caf_succ]
    rcases Nat.lt_or_ge f n with hlt | hge
    · have := ih hpn f hlt hdom
      split
      · exact closeCh_trace_sub this
      · exact this
    · have hfn : f = n := by omega
      subst hfn
      have hdomn : f ∈ (closeAllFiles f mrs).1.fpDom := (caf_dom_ge f mrs f (by omega)).mpr hdom
      rw [if_pos hdomn]
      by_cases hcs : Sig.fileDone f ∈ (closeAllFiles f mrs).2.closedSet
      · exfalso
        rw [caf_succ, if_pos hdomn] at h
        rw [closeCh, if_neg (by simp [hpn]), if_pos hcs] at h
        simp at h
      · exact mem_trace_closeCh_self hpn hcs

/-- The short-circuit path: either the worker panicked (and `downloadDone`
never entered the trace), or the trace ends with `downloadDone` and every
file's channel was closed strictly before it. -/
theorem scc_spec (t : TInput) (m : RMaps) (rs : RunState)
    (hP : PFiles t m rs) (hdom : ∀ f, f ∈ m.fpDom → f < t.files.length)
    (hddt : Sig.downloadDone ∉ rs.trace) (hddc : Sig.downloadDone ∉ rs.closedSet) :
    ((shortCircuitClose t.pieces.length t.files.length m rs).2.panicked = true ∧
      Sig.downloadDone ∉ (shortCircuitClose t.pieces.length t.files.length m rs).2.trace) ∨
    (∃ T, (shortCircuitClose t.pieces.length t.files.length m rs).2.trace =
        T ++ [Sig.downloadDone] ∧ Sig.downloadDone ∉ T ∧
      ∀ f, f < t.files.length → Sig.fileDone f ∈ T) := by
  unfold shortCircuitClose
  set a := closeAllPieces t.pieces.length (m, rs) with ha
  set b := closeAllFiles t.files.length a with hb
  have hddta : Sig.downloadDone ∉ a.2.trace := by
    obtain ⟨l, hl, hly⟩ := cap_trace_ex t.pieces.length (m, rs)
    rw [hl]
    intro hmem
    rcases List.mem_append.mp hmem with h | h
    · exact hddt h
    · obtain ⟨i, hi⟩ := hly _ h
      exact Sig.noConfusion hi
  have hddtb : Sig.downloadDone ∉ b.2.trace := by
    obtain ⟨l, hl, hly⟩ := caf_trace_ex t.files.length a
    rw [hl]
    intro hmem
    rcases List.mem_append.mp hmem with h | h
    · exact hddta h
    · obtain ⟨g, hg⟩ := hly _ h
      exact Sig.noConfusion hg
  have hddcb : Sig.downloadDone ∉ b.2.closedSet := by
    intro hmem
    rcases caf_closedSet_new t.files.length a _ hmem with h | ⟨g, hg⟩
    · rcases cap_closedSet_new t.pieces.length (m, rs) _ h with h' | ⟨i, hi⟩
      · exact hddc h'
      · exact Sig.noConfusion hi
    · exact Sig.noConfusion hg
  by_cases hbp : b.2.panicked = true
  · left
    constructor
    · simpa [closeCh_of_panicked hbp]
    · simpa [closeCh_of_panicked hbp] using hddtb
  · right
    have hbp' : b.2.panicked = false := by simpa using hbp
    refine ⟨b.2.trace, ?_, hddtb, ?_⟩
    · simp only
      rw [closeCh_trace_eq hbp' hddcb]
    · intro f hf
      rcases hP f hf with hcl | ⟨hfd, _⟩
      · obtain ⟨l, hl, _⟩ := cap_trace_ex t.pieces.length (m, rs)
        obtain ⟨l2, hl2, _⟩ := caf_trace_ex t.files.length a
        rw [hl2, hl]
        exact List.mem_append.mpr (.inl (List.mem_append.mpr (.inl hcl)))
      · refine caf_mem t.files.length a hbp' f hf ?_
        rw [(cap_fp t.pieces.length (m, rs)).2]
        exact hfd

/-- All facts about one `feedFileStep` needed by the loop invariant. -/
theorem feedFileStep_facts (t : TInput) (idx k : Nat) (acc : RMaps × RunState) (f0 : Nat) :
    (Sig.downloadDone ∉ acc.2.trace → Sig.downloadDone ∉ (feedFileStep idx acc f0).2.trace) ∧
    ((feedFileStep idx acc f0).2.panicked = false → acc.2.panicked = false) ∧
    (∀ f j, j ∈ (feedFileStep idx acc f0).1.fp f → j ∈ acc.1.fp f) ∧
    (idx ∉ (feedFileStep idx acc f0).1.fp f0) ∧
    ((acc.2.panicked = true ∨
        (Sig.downloadDone ∉ acc.2.closedSet ∧ PFiles t acc.1 acc.2 ∧ SymMaps acc.1 ∧
          RelMaps t k acc.1)) →
      ((feedFileStep idx acc f0).2.panicked = true ∨
        (Sig.downloadDone ∉ (feedFileStep idx acc f0).2.closedSet ∧
          PFiles t (feedFileStep idx acc f0).1 (feedFileStep idx acc f0).2 ∧
          SymMaps (feedFileStep idx acc f0).1 ∧ RelMaps t k (feedFileStep idx acc f0).1))) := by
  have hstep : feedFileStep idx acc f0 =
      if eraseAll (acc.1.fp f0) idx = [] then
        ({ fp := fun x => if x = f0 then [] else acc.1.fp x
           fpDom := eraseAll acc.1.fpDom f0
           pf := fun x => if x = idx then eraseAll (acc.1.pf x) f0 else acc.1.pf x
           pfDom := acc.1.pfDom },
          closeCh acc.2 (.fileDone f0))
      else
        ({ acc.1 with fp := fun x => if x = f0 then eraseAll (acc.1.fp x) idx else acc.1.fp x },
          acc.2) := by
    unfold feedFileStep
    by_cases hbr : eraseAll (acc.1.fp f0) idx = []
    · rw [if_pos (by simpa using hbr), if_pos hbr]
      simp only
      congr 1
      congr 1
      funext x
      by_cases hx : x = f0
      · rw [if_pos hx, if_pos hx]
      · rw [if_neg hx, if_neg hx, if_neg hx]
    · rw [if_neg (by simpa using hbr), if_neg hbr]
  rw [hstep]
  by_cases hbr : eraseAll (acc.1.fp f0) idx = []
  · rw [if_pos hbr]
    refine ⟨?_, ?_, ?_, ?_, ?_⟩
    · intro hdd hmem
      rcases mem_closeCh_trace hmem with h | h
      · exact hdd h
      · exact Sig.noConfusion h
    · exact closeCh_panicked_rev
    · intro f j hj
      simp only at hj
      by_cases hff : f = f0
      · rw [if_pos hff] at hj
        simp at hj
      · rw [if_neg hff] at hj
        exact hj
    · simp
    · rintro (hpan | ⟨hdd, hPF, hSym, hRel⟩)
      · left
        rw [closeCh_of_panicked hpan]
        exact hpan
      · by_cases hap : acc.2.panicked = true
        · left
          rw [closeCh_of_panicked hap]
          exact hap
        · have hap' : acc.2.panicked = false := by simpa using hap
          by_cases hcs : Sig.fileDone f0 ∈ acc.2.closedSet
          · left
            rw [closeCh, if_neg (by simp [hap']), if_pos hcs]
          · right
            refine ⟨?_, ?_, ?_, ?_⟩
            · intro hmem
              rcases mem_closeCh_closedSet hmem with h | h
              · exact hdd h
              · exact Sig.noConfusion h
            · intro f hf
              by_cases hff : f = f0
              · subst hff
                exact .inl (mem_trace_closeCh_self hap' hcs)
              · rcases hPF f hf with h | ⟨h1, h2⟩
                · exact .inl (closeCh_trace_sub h)
                · right
                  refine ⟨mem_eraseAll.mpr ⟨h1, hff⟩, ?_⟩
                  simp only
                  rw [if_neg hff]
                  exact h2
            · intro f j hj
              simp only at hj ⊢
              by_cases hff : f = f0
              · rw [if_pos hff] at hj
                simp at hj
              · rw [if_neg hff] at hj
                have := hSym f j hj
                by_cases hji : j = idx
                · rw [if_pos hji]
                  exact mem_eraseAll.mpr ⟨hji ▸ this, hff⟩
                · rw [if_neg hji]
                  exact this
            · intro f j hj
              simp only at hj
              by_cases hff : f = f0
              · rw [if_pos hff] at hj
                simp at hj
              · rw [if_neg hff] at hj
                exact hRel f j hj
  · rw [if_neg hbr]
    refine ⟨fun h => h, fun h => h, ?_, ?_, ?_⟩
    · intro f j hj
      simp only at hj
      by_cases hff : f = f0
      · rw [if_pos hff] at hj
        exact (mem_eraseAll.mp hj).1
      · rw [if_neg hff] at hj
        exact hj
    · simp only [if_pos rfl]
      intro hmem
      exact (mem_eraseAll.mp hmem).2 rfl
    · rintro (hpan | ⟨hdd, hPF, hSym, hRel⟩)
      · exact .inl hpan
      · right
        refine ⟨hdd, ?_, ?_, ?_⟩
        · intro f hf
          rcases hPF f hf with h | ⟨h1, h2⟩
          · exact .inl h
          · right
            refine ⟨h1, ?_⟩
            simp only
            by_cases hff : f = f0
            · rw [if_pos hff]
              rw [hff] at h2 ⊢
              exact hbr
            · rw [if_neg hff]
              exact h2
        · intro f j hj
          simp only at hj
          by_cases hff : f = f0
          · rw [if_pos hff] at hj
            exact hSym f j (mem_eraseAll.mp hj).1
          · rw [if_neg hff] at hj
            exact hSym f j hj
        · intro f j hj
          simp only at hj
          by_cases hff : f = f0
          · rw [if_pos hff] at hj
            exact hRel f j ((mem_eraseAll.mp hj).1)
          · rw [if_neg hff] at hj
            exact hRel f j hj

/-- Invariant preservation through the per-piece file fold. -/
theorem feedFold_inv (t : TInput) (idx k : Nat) :
    ∀ (L : List Nat) (mrs : RMaps × RunState),
      Sig.downloadDone ∉ mrs.2.trace →
      (mrs.2.panicked = true ∨
        (Sig.downloadDone ∉ mrs.2.closedSet ∧ PFiles t mrs.1 mrs.2 ∧ SymMaps mrs.1 ∧
          RelMaps t k mrs.1)) →
      (Sig.downloadDone ∉ (L.foldl (feedFileStep idx) mrs).2.trace) ∧
      ((L.foldl (feedFileStep idx) mrs).2.panicked = true ∨
        (Sig.downloadDone ∉ (L.foldl (feedFileStep idx) mrs).2.closedSet ∧
          PFiles t (L.foldl (feedFileStep idx) mrs).1 (L.foldl (feedFileStep idx) mrs).2 ∧
          SymMaps (L.foldl (feedFileStep idx) mrs).1 ∧
          RelMaps t k (L.foldl (feedFileStep idx) mrs).1)) ∧
      (∀ f j, j ∈ (L.foldl (feedFileStep idx) mrs).1.fp f → j ∈ mrs.1.fp f) ∧
      (∀ f, f ∈ L → idx ∉ (L.foldl (feedFileStep idx) mrs).1.fp f) ∧
      ((L.foldl (feedFileStep idx) mrs).2.panicked = false → mrs.2.panicked = false) := by
  intro L
  induction L with
  | nil =>
    intro mrs hdd hpl
    exact ⟨hdd, hpl, fun _ _ h => h, fun f hf => absurd hf (List.not_mem_nil f), fun h => h⟩
  | cons f0 rest ih =>
    intro mrs hdd hpl
    have hf := feedFileStep_facts t idx k mrs f0
    have hmain := ih (feedFileStep idx mrs f0) (hf.1 hdd) (hf.2.2.2.2 hpl)
    refine ⟨hmain.1, hmain.2.1, ?_, ?_, ?_⟩
    · intro f j hj
      exact hf.2.2.1 f j (hmain.2.2.1 f j hj)
    · intro f hfm
      rcases List.mem_cons.mp hfm with rfl | hfm'
      · intro hmem
        exact hf.2.2.2.1 (hmain.2.2.1 f idx hmem)
      · exact hmain.2.2.2.1 f hfm'
    · intro h
      exact hf.2.1 (hmain.2.2.2.2 h)

/-- `feedPieceStep` preserves the loop invariant and advances the
notification counter. -/
theorem feedPieceStep_inv (t : TInput) (idx k : Nat) (m : RMaps) (rs : RunState)
    (hInv : LoopInv t k m rs) (hfeed : t.feed.get? k = some (idx, true)) :
    LoopInv t (k + 1) (feedPieceStep idx m rs).1 (feedPieceStep idx m rs).2 := by
  obtain ⟨hddt, hpl⟩ := hInv
  unfold feedPieceStep
  have hddt' : Sig.downloadDone ∉ (closeCh rs (.pieceDone idx)).trace := by
    intro hmem
    rcases mem_closeCh_trace hmem with h | h
    · exact hddt h
    · exact Sig.noConfusion h
  have hpl' : (closeCh rs (.pieceDone idx)).panicked = true ∨
      (Sig.downloadDone ∉ (closeCh rs (.pieceDone idx)).closedSet ∧
        PFiles t m (closeCh rs (.pieceDone idx)) ∧ SymMaps m ∧ RelMaps t k m) := by
    rcases hpl with hpan | ⟨hddc, hPF, hSym, hRel⟩
    · left
      rw [closeCh_of_panicked hpan]
      exact hpan
    · by_cases hap : rs.panicked = true
      · left
        rw [closeCh_of_panicked hap]
        exact hap
      · right
        refine ⟨?_, ?_, hSym, hRel⟩
        · intro hmem
          rcases mem_closeCh_closedSet hmem with h | h
          · exact hddc h
          · exact Sig.noConfusion h
        · intro f hfl
          rcases hPF f hfl with h | h
          · exact .inl (closeCh_trace_sub h)
          · exact .inr h
  have hfold := feedFold_inv t idx k (m.pf idx) (m, closeCh rs (.pieceDone idx)) hddt' hpl'
  refine ⟨hfold.1, ?_⟩
  by_cases hop : (List.foldl (feedFileStep idx) (m, closeCh rs (.pieceDone idx))
      (m.pf idx)).2.panicked = true
  · exact .inl hop
  · have hop' : (List.foldl (feedFileStep idx) (m, closeCh rs (.pieceDone idx))
        (m.pf idx)).2.panicked = false := by simpa using hop
    have hrs' : (closeCh rs (.pieceDone idx)).panicked = false := hfold.2.2.2.2 hop'
    rcases hpl' with hpan' | ⟨hddc', hPF', hSym', hRel'⟩
    · rw [hpan'] at hrs'
      exact absurd hrs' (by simp)
    · rcases hfold.2.1 with hpan | ⟨hddc, hPF, hSym, hRel⟩
      · exact absurd hpan hop
      · right
        refine ⟨hddc, hPF, hSym, ?_⟩
        intro f j hj
        have hrel := hRel f j hj
        refine ⟨hrel.1, ?_⟩
        rintro ⟨r, hr, hget⟩
        rcases Nat.lt_or_ge r k with hrk | hrk
        · exact hrel.2 ⟨r, hrk, hget⟩
        · have hrk' : r = k := by omega
          subst hrk'
          rw [hfeed] at hget
          have hji : idx = j := by
            have := Option.some.inj hget
            exact (Prod.mk.injEq _ _ _ _).mp this |>.1
          subst hji
          have hjm : idx ∈ m.fp f := hfold.2.2.1 f idx hj
          have hfL : f ∈ m.pf idx := hSym' f idx hjm
          exact hfold.2.2.2.1 f hfL hj

/-- The feed loop: if it breaks out with `downloadDone`, either the worker
panicked (and `downloadDone` never entered the trace) or the trace ends with
`downloadDone` preceded by every file's `fileDone`; if the feed closed first,
`downloadDone` is not in the trace. -/
theorem feedLoop_spec (t : TInput)
    (hsync : ∀ k, t.missing0 k = true → ∀ j, relevantPiece t j → notifiedBy t.feed k j) :
    ∀ (rest : List (Nat × Bool)) (k : Nat) (m : RMaps) (rs : RunState),
      rest = t.feed.drop k → LoopInv t k m rs →
      (((feedLoop t.missing0 rest k m rs).2.2 = true →
        ((feedLoop t.missing0 rest k m rs).2.1.panicked = true ∧
            Sig.downloadDone ∉ (feedLoop t.missing0 rest k m rs).2.1.trace) ∨
        (∃ T, (feedLoop t.missing0 rest k m rs).2.1.trace = T ++ [Sig.downloadDone] ∧
            Sig.downloadDone ∉ T ∧
            ∀ f, f < t.files.length → Sig.fileDone f ∈ T)) ∧
      ((feedLoop t.missing0 rest k m rs).2.2 = false →
        Sig.downloadDone ∉ (feedLoop t.missing0 rest k m rs).2.1.trace)) := by
  intro rest
  induction rest with
  | nil =>
    intro k m rs _ hInv
    constructor
    · intro h
      simp [feedLoop] at h
    · intro _
      show Sig.downloadDone ∉ (closeCh rs .closedSig).trace
      intro hmem
      rcases mem_closeCh_trace hmem with h | h
      · exact hInv.1 h
      · exact Sig.noConfusion h
  | cons e rest2 ih =>
    intro k m rs hrest hInv
    obtain ⟨idx, c⟩ := e
    have hgetk : t.feed.get? k = some (idx, c) := by
      have : (t.feed.drop k).get? 0 = some (idx, c) := by rw [← hrest]; rfl
      rwa [List.get?_drop, Nat.add_zero] at this
    have hrest2 : rest2 = t.feed.drop (k + 1) := by
      have h1 : t.feed.drop (k + 1) = (t.feed.drop k).tail := by
        rw [List.tail_drop]
      rw [h1, ← hrest]
      rfl
    rw [feedLoop]
    by_cases hc : c = true
    · subst hc
      rw [if_pos rfl]
      have hstep := feedPieceStep_inv t idx k m rs hInv hgetk
      by_cases hmiss : t.missing0 (k + 1) = true
      · rw [if_pos hmiss]
        constructor
        · intro _
          by_cases hpan : (feedPieceStep idx m rs).2.panicked = true
          · left
            constructor
            · simpa [closeCh_of_panicked hpan]
            · simpa [closeCh_of_panicked hpan] using hstep.1
          · right
            have hpan' : (feedPieceStep idx m rs).2.panicked = false := by simpa using hpan
            rcases hstep.2 with h | ⟨hddc, hPF, hSym, hRel⟩
            · exact absurd h hpan
            · refine ⟨(feedPieceStep idx m rs).2.trace, ?_, hstep.1, ?_⟩
              · simp only
                rw [closeCh_trace_eq hpan' hddc]
              · intro f hf
                rcases hPF f hf with h | ⟨_, hne⟩
                · exact h
                · exfalso
                  obtain ⟨j, hj⟩ := List.exists_mem_of_ne_nil _ hne
                  have hrel := hRel f j hj
                  exact hrel.2 (hsync (k + 1) hmiss j hrel.1)
        · intro h
          simp at h
      · rw [if_neg hmiss]
        exact ih (k + 1) (feedPieceStep idx m rs).1 (feedPieceStep idx m rs).2 hrest2 hstep
    · rw [if_neg hc]
      refine ih (k + 1) m rs hrest2 ⟨hInv.1, ?_⟩
      rcases hInv.2 with hpan | ⟨hddc, hPF, hSym, hRel⟩
      · exact .inl hpan
      · right
        refine ⟨hddc, hPF, hSym, ?_⟩
        intro f j hj
        have hrel := hRel f j hj
        refine ⟨hrel.1, ?_⟩
        rintro ⟨r, hr, hget⟩
        rcases Nat.lt_or_ge r k with hrk | hrk
        · exact hrel.2 ⟨r, hrk, hget⟩
        · have hrk' : r = k := by omega
          subst hrk'
          rw [hgetk] at hget
          have := Option.some.inj hget
          have hcc := ((Prod.mk.injEq _ _ _ _).mp this).2
          exact hc hcc

theorem feedLoop_broke_missing (missing0 : Nat → Bool) :
    ∀ (rest : List (Nat × Bool)) (k : Nat) (m : RMaps) (rs : RunState),
      (feedLoop missing0 rest k m rs).2.2 = true → ∃ k', missing0 k' = true := by
  intro rest
  induction rest with
  | nil =>
    intro k m rs h
    simp [feedLoop] at h
  | cons e rest2 ih =>
    intro k m rs h
    obtain ⟨idx, c⟩ := e
    rw [feedLoop] at h
    split at h
    · split at h
      · rename_i hmiss
        exact ⟨k + 1, hmiss⟩
      · exact ih (k + 1) _ _ h
    · exact ih (k + 1) _ _ h

/-- **C1, amended.** `downloadDone` closes only when the transfer has
reported zero missing bytes; and when the missing-bytes counter is
synchronous with the feed — it reports zero only once every relevant piece's
notification has been consumed — every file's completion signal closes
strictly before `downloadDone`, in every interleaving of the feed. -/
theorem C1_download_after_files (t : TInput)
    (hinfo : t.infoBeforeClosed = true)
    (hsync : ∀ k, t.missing0 k = true → ∀ j, relevantPiece t j → notifiedBy t.feed k j) :
    ∀ f, f < t.files.length →
      (Sig.downloadDone ∈ (runModel t).trace →
        Sig.fileDone f ∈ (runModel t).trace ∧ ∃ k, t.missing0 k = true) ∧
      Precedes (Sig.fileDone f) Sig.downloadDone (runModel t).trace := by
  intro f hf
  have hmodel : runModel t =
      (if t.missing0 0 then
        seedPhase t (shortCircuitClose t.pieces.length t.files.length (runInit t).1
          (runInit t).2).2
      else if (feedLoop t.missing0 t.feed 0 (runInit t).1 (runInit t).2).2.2 then
        seedPhase t (feedLoop t.missing0 t.feed 0 (runInit t).1 (runInit t).2).2.1
      else (feedLoop t.missing0 t.feed 0 (runInit t).1 (runInit t).2).2.1) := by
    rw [runModel, if_neg (by simp [hinfo])]
  have hddInit : Sig.downloadDone ∉ (runInit t).2.trace := (runInit_LoopInv t).1
  have hddcInit : Sig.downloadDone ∉ (runInit t).2.closedSet := by
    intro h
    rcases runInit_closedSet_new t _ h with h | h | ⟨i, h⟩ | ⟨g, h⟩ <;> exact Sig.noConfusion h
  by_cases hm0 : t.missing0 0 = true
  · rw [hmodel, if_pos hm0]
    rcases scc_spec t (runInit t).1 (runInit t).2 (runInit_PFiles t)
        (fun g hg => runInit_fpDom_lt t g hg) hddInit hddcInit with
      ⟨_, hddt⟩ | ⟨T, hT, hddT, hfiles⟩
    · obtain ⟨L, hL, hLy⟩ := seedPhase_trace t _
      have hddAll : Sig.downloadDone ∉ (seedPhase t (shortCircuitClose t.pieces.length
          t.files.length (runInit t).1 (runInit t).2).2).trace := by
        rw [hL]
        intro hmem
        rcases List.mem_append.mp hmem with h | h
        · exact hddt h
        · rcases hLy _ h with h' | h' <;> exact Sig.noConfusion h'
      exact ⟨fun h => absurd h hddAll, precedes_of_not_mem hddAll⟩
    · obtain ⟨L, hL, hLy⟩ := seedPhase_trace t _
      rw [hL, hT]
      have hsplit : (T ++ [Sig.downloadDone]) ++ L = T ++ Sig.downloadDone :: L := by
        rw [List.append_assoc]
        rfl
      rw [hsplit]
      constructor
      · intro _
        refine ⟨?_, 0, hm0⟩
        exact List.mem_append.mpr (.inl (hfiles f hf))
      · refine precedes_of_parts (hfiles f hf) hddT ?_ ?_
        · intro hmem
          rcases hLy _ hmem with h | h <;> exact Sig.noConfusion h
        · intro hmem
          rcases hLy _ hmem with h | h <;> exact Sig.noConfusion h
  · rw [hmodel, if_neg hm0]
    have hfl := feedLoop_spec t hsync t.feed 0 (runInit t).1 (runInit t).2 (by simp)
      (runInit_LoopInv t)
    by_cases hb : (feedLoop t.missing0 t.feed 0 (runInit t).1 (runInit t).2).2.2 = true
    · rw [if_pos hb]
      have hbroke := feedLoop_broke_missing t.missing0 t.feed 0 (runInit t).1 (runInit t).2 hb
      rcases hfl.1 hb with ⟨_, hddt⟩ | ⟨T, hT, hddT, hfiles⟩
      · obtain ⟨L, hL, hLy⟩ := seedPhase_trace t _
        have hddAll : Sig.downloadDone ∉ (seedPhase t (feedLoop t.missing0 t.feed 0
            (runInit t).1 (runInit t).2).2.1).trace := by
          rw [hL]
          intro hmem
          rcases List.mem_append.mp hmem with h | h
          · exact hddt h
          · rcases hLy _ h with h' | h' <;> exact Sig.noConfusion h'
        exact ⟨fun h => absurd h hddAll, precedes_of_not_mem hddAll⟩
      · obtain ⟨L, hL, hLy⟩ := seedPhase_trace t _
        rw [hL, hT]
        have hsplit : (T ++ [Sig.downloadDone]) ++ L = T ++ Sig.downloadDone :: L := by
          rw [List.append_assoc]
          rfl
        rw [hsplit]
        constructor
        · intro _
          exact ⟨List.mem_append.mpr (.inl (hfiles f hf)), hbroke⟩
        · refine precedes_of_parts (hfiles f hf) hddT ?_ ?_
          · intro hmem
            rcases hLy _ hmem with h | h <;> exact Sig.noConfusion h
          · intro hmem
            rcases hLy _ hmem with h | h <;> exact Sig.noConfusion h
    · rw [if_neg hb]
      have hdd := hfl.2 (by simpa using hb)
      exact ⟨fun h => absurd h hdd, precedes_of_not_mem hdd⟩

/-- Concrete synchronous transfer for the C1 witness. -/
def c1amInput : TInput :=
  { files := [⟨0, 10⟩, ⟨10, 10⟩]
    pieces := [⟨0, 10⟩, ⟨10, 10⟩]
    infoBeforeClosed := true
    initComplete := fun _ => false
    feed := [(0, true), (1, true)]
    missing0 := fun k => 2 ≤ k
    seedImmediate := true
    seedMet := false }

theorem C1_download_after_files_witness :
    Sig.downloadDone ∈ (runModel c1amInput).trace ∧
    Sig.fileDone 0 ∈ (runModel c1amInput).trace ∧
    Precedes (Sig.fileDone 0) Sig.downloadDone (runModel c1amInput).trace := by
  have hsync : ∀ k, c1amInput.missing0 k = true →
      ∀ j, relevantPiece c1amInput j → notifiedBy c1amInput.feed k j := by
    intro k hk j hrel
    have hk2 : 2 ≤ k := by simpa [c1amInput] using hk
    obtain ⟨p, hget, _, _⟩ := hrel
    have hj : j < 2 := by
      have := List.get?_eq_some.mp hget
      simpa [c1amInput] using this.1
    match j, hj with
    | 0, _ => exact ⟨0, by omega, rfl⟩
    | 1, _ => exact ⟨1, by omega, rfl⟩
  have h := C1_download_after_files c1amInput rfl hsync 0 (by decide)
  exact ⟨by decide, (h.1 (by decide)).1, h.2⟩

/-! ## C3/C10: exactness of the overlap computations -/

/-- Sorted, non-overlapping file ranges: an earlier file ends at or before a
later file begins. -/
def FilesOrdered (files : List TFile) : Prop :=
  ∀ k k' fk fk', k < k' → files.get? k = some fk → files.get? k' = some fk' →
    fk.offset + fk.length ≤ fk'.offset

/-- Sorted, non-overlapping piece ranges. -/
def PiecesOrdered (pieces : List TPiece) : Prop :=
  ∀ k k' pk pk', k < k' → pieces.get? k = some pk → pieces.get? k' = some pk' →
    pk.offset + pk.length ≤ pk'.offset

/-- Contiguous ranges: each next one begins exactly where the previous ends. -/
def FilesContiguous (files : List TFile) : Prop :=
  ∀ k fk fk', files.get? k = some fk → files.get? (k + 1) = some fk' →
    fk'.offset = fk.offset + fk.length

def PiecesContiguous (pieces : List TPiece) : Prop :=
  ∀ k pk pk', pieces.get? k = some pk → pieces.get? (k + 1) = some pk' →
    pk'.offset = pk.offset + pk.length

/-- Nonnegative lengths. -/
def FilesNonNeg (files : List TFile) : Prop :=
  ∀ k fk, files.get? k = some fk → 0 ≤ fk.length

def PiecesNonNeg (pieces : List TPiece) : Prop :=
  ∀ k pk, pieces.get? k = some pk → 0 ≤ pk.length

/-- Membership in `getPieceIndices`' accumulating scan. -/
theorem gpi_go_mem (fl : TFile) :
    ∀ (ps : List TPiece) (i x : Nat),
      x ∈ getPieceIndicesGo fl i ps ↔
        fl.length ≠ 0 ∧ ∃ r p, ps.get? r = some p ∧ ovl fl p ∧ x = i + r := by
  intro ps
  induction ps with
  | nil =>
    intro i x
    simp [getPieceIndicesGo]
  | cons p rest ih =>
    intro i x
    rw [getPieceIndicesGo]
    by_cases h0 : fl.length = 0
    · rw [if_pos h0]
      simp [h0]
    · rw [if_neg h0]
      by_cases hov : ovl fl p
      · rw [if_pos hov]
        simp only [List.mem_cons]
        constructor
        · rintro (rfl | hx)
          · exact ⟨h0, 0, p, rfl, hov, by omega⟩
          · obtain ⟨_, r, q, hget, hovq, rfl⟩ := (ih (i + 1) x).mp hx
            exact ⟨h0, r + 1, q, by simpa using hget, hovq, by omega⟩
        · rintro ⟨_, r, q, hget, hovq, rfl⟩
          match r, hget with
          | 0, hget =>
            left
            omega
          | r + 1, hget =>
            right
            exact (ih (i + 1) _).mpr ⟨h0, r, q, by simpa using hget, hovq, by omega⟩
      · rw [if_neg hov]
        rw [ih (i + 1) x]
        constructor
        · rintro ⟨_, r, q, hget, hovq, rfl⟩
          exact ⟨h0, r + 1, q, by simpa using hget, hovq, by omega⟩
        · rintro ⟨_, r, q, hget, hovq, rfl⟩
          match r, hget with
          | 0, hget =>
            exfalso
            simp only [List.get?_cons_zero, Option.some.injEq] at hget
            exact hov (hget ▸ hovq)
          | r + 1, hget =>
            exact ⟨h0, r, q, by simpa using hget, hovq, by omega⟩

theorem gpi_go_lb (fl : TFile) :
    ∀ (ps : List TPiece) (i x : Nat), x ∈ getPieceIndicesGo fl i ps → i ≤ x := by
  intro ps
  induction ps with
  | nil => intro i x h; simp [getPieceIndicesGo] at h
  | cons p rest ih =>
    intro i x h
    rw [getPieceIndicesGo] at h
    split at h
    · simp at h
    · split at h
      · rcases List.mem_cons.mp h with rfl | h'
        · omega
        · have := ih (i + 1) x h'
          omega
      · have := ih (i + 1) x h
        omega

theorem gpi_go_sorted (fl : TFile) :
    ∀ (ps : List TPiece) (i : Nat), (getPieceIndicesGo fl i ps).Pairwise (· < ·) := by
  intro ps
  induction ps with
  | nil => intro i; simp [getPieceIndicesGo]
  | cons p rest ih =>
    intro i
    rw [getPieceIndicesGo]
    split
    · simp
    · split
      · refine List.Pairwise.cons ?_ (ih (i + 1))
        intro x hx
        have := gpi_go_lb fl rest (i + 1) x hx
        omega
      · exact ih (i + 1)

/-- `getPieceIndices` returns exactly the pieces passing the overlap
condition, in strictly increasing order, and the empty list for a
zero-length file. -/
theorem getPieceIndices_exact (pieces : List TPiece) (fl : TFile) :
    (∀ x, x ∈ getPieceIndices pieces fl ↔
      fl.length ≠ 0 ∧ ∃ p, pieces.get? x = some p ∧ specOvl fl p) ∧
    (getPieceIndices pieces fl).Pairwise (· < ·) ∧
    (fl.length = 0 → getPieceIndices pieces fl = []) := by
  refine ⟨?_, gpi_go_sorted fl pieces 0, ?_⟩
  · intro x
    rw [getPieceIndices, gpi_go_mem]
    constructor
    · rintro ⟨h0, r, p, hget, hov, rfl⟩
      exact ⟨h0, p, by simpa using hget, (ovl_iff_specOvl fl p).mp hov⟩
    · rintro ⟨h0, p, hget, hov⟩
      exact ⟨h0, x, p, by simpa using hget, (ovl_iff_specOvl fl p).mpr hov, by omega⟩
  · intro h0
    cases pieces with
    | nil => rfl
    | cons p rest =>
      rw [getPieceIndices, getPieceIndicesGo, if_pos h0]

/-- The cursor never points past any file that still matters: every
nonzero-length file overlapping any not-yet-processed piece lies at or after
the cursor. -/
def GoodCursor (files : List TFile) (pieces : List TPiece) (i cur : Nat) : Prop :=
  ∀ i' p, i ≤ i' → pieces.get? i' = some p → p.length ≠ 0 →
    ∀ f fl, files.get? f = some fl → fl.length ≠ 0 → ovl fl p → cur ≤ f

/-- With a good cursor, the scan of piece `i` finds exactly the
nonzero-length files overlapping it. -/
theorem scan_exact (files : List TFile) (pieces : List TPiece) (i cur : Nat) (p : TPiece)
    (hget : pieces.get? i = some p) (hlen : p.length ≠ 0)
    (hgood : GoodCursor files pieces i cur) :
    ∀ f, f ∈ (scanFiles files p.offset (p.offset + p.length - 1) cur).2 ↔
      ∃ fl, files.get? f = some fl ∧ fl.length ≠ 0 ∧ ovl fl p := by
  intro f
  rw [scanFiles_mem]
  constructor
  · rintro ⟨_, fl, hf, hl, hov⟩
    exact ⟨fl, hf, hl, hov⟩
  · rintro ⟨fl, hf, hl, hov⟩
    exact ⟨hgood i p (le_refl i) hget hlen f fl hf hl hov, fl, hf, hl, hov.1, hov.2⟩

/-- Processing piece `i` preserves the good-cursor property for the rest. -/
theorem cursor_advance (files : List TFile) (pieces : List TPiece) (i cur : Nat) (p : TPiece)
    (hfo : FilesOrdered files) (hpo : PiecesOrdered pieces)
    (hget : pieces.get? i = some p) (hlen : p.length ≠ 0)
    (hgood : GoodCursor files pieces i cur) :
    GoodCursor files pieces (i + 1)
      (scanFiles files p.offset (p.offset + p.length - 1) cur).1 := by
  rcases scanFilesGo_cursor (files.drop cur) 0 cur with hc | ⟨g, hg, hle⟩
  · intro i' p' hi' hget' hlen' f fl hf hl hov
    rw [show (scanFiles files p.offset (p.offset + p.length - 1) cur).1 = cur from hc]
    exact hgood i' p' (by omega) hget' hlen' f fl hf hl hov
  · intro i' p' hi' hget' hlen' f fl hf hl hov
    obtain ⟨hcg, gl, hgf, hgl, hgov⟩ := (scanFiles_mem files p.offset
      (p.offset + p.length - 1) cur g).mp hg
    refine le_trans hle ?_
    by_cases hfg : f < g
    · exfalso
      have hsort := hfo f g fl gl hfg hf hgf
      have hpsort := hpo i i' p p' (by omega) hget hget'
      have hov1 : fl.offset + fl.length - 1 ≥ p'.offset := hov.2
      have hov2 : p.offset + p.length - 1 ≥ gl.offset := hgov.1
      omega
    · omega

/-- The heart of C3: over a sorted, non-overlapping geometry the cursor-based
sweep computes exactly the nonzero-length overlap adjacency, for every piece
that participates and every file. -/
theorem sweep_maps_exact (files : List TFile) (pieces : List TPiece) (init : Nat → Bool)
    (hfo : FilesOrdered files) (hpo : PiecesOrdered pieces) :
    ∀ (ps : List TPiece) (i cur : Nat) (m : RMaps) (rs : RunState),
      ps = pieces.drop i → GoodCursor files pieces i cur →
      ((∀ i' p, i ≤ i' → pieces.get? i' = some p → p.length ≠ 0 → init i' = false →
        ∀ f, f ∈ (sweepPieces files init i ps cur m rs).1.pf i' ↔
          ∃ fl, files.get? f = some fl ∧ fl.length ≠ 0 ∧ ovl fl p) ∧
      (∀ j, j < i → (sweepPieces files init i ps cur m rs).1.pf j = m.pf j) ∧
      (∀ f j, j ∈ (sweepPieces files init i ps cur m rs).1.fp f ↔
        j ∈ m.fp f ∨ (i ≤ j ∧ ∃ p fl, pieces.get? j = some p ∧ p.length ≠ 0 ∧
          init j = false ∧ files.get? f = some fl ∧ fl.length ≠ 0 ∧ ovl fl p))) := by
  intro ps
  induction ps with
  | nil =>
    intro i cur m rs hdrop _
    have hlen : pieces.length ≤ i := by
      by_contra hc
      have : pieces.drop i ≠ [] := by
        intro h
        rw [List.drop_eq_nil_iff_le] at h
        omega
      exact this hdrop.symm
    refine ⟨?_, ?_, ?_⟩
    · intro i' p _ hget _ _
      exfalso
      have := (List.get?_eq_some.mp hget).1
      omega
    · intro j _; rfl
    · intro f j
      constructor
      · intro h; exact .inl h
      · rintro (h | ⟨_, p, _, hget, _⟩)
        · exact h
        · exfalso
          have := (List.get?_eq_some.mp hget).1
          omega
  | cons p rest ih =>
    intro i cur m rs hdrop hgood
    have hgeti : pieces.get? i = some p := by
      have : (pieces.drop i).get? 0 = some p := by rw [← hdrop]; rfl
      rwa [List.get?_drop, Nat.add_zero] at this
    have hrest : rest = pieces.drop (i + 1) := by
      have h1 : pieces.drop (i + 1) = (pieces.drop i).tail := by rw [List.tail_drop]
      rw [h1, ← hdrop]
      rfl
    rw [sweepPieces]
    by_cases hskip : p.length = 0 ∨ init i = true
    · rw [if_pos hskip]
      have hgood' : GoodCursor files pieces (i + 1) cur := by
        intro i' p' hi' hget' hlen' f fl hf hl hov
        exact hgood i' p' (by omega) hget' hlen' f fl hf hl hov
      obtain ⟨ihA, ihB, ihC⟩ := ih (i + 1) cur m (closeCh rs (.pieceDone i)) hrest hgood'
      refine ⟨?_, ?_, ?_⟩
      · intro i' p' hi' hget' hlen' hinit' f
        rcases Nat.lt_or_ge i' (i + 1) with hlt | hge
        · have hii : i' = i := by omega
          subst hii
          exfalso
          rw [hgeti] at hget'
          rcases hskip with h | h
          · exact hlen' (by injection hget' with hh; rw [← hh]; exact h)
          · rw [hinit'] at h
            exact Bool.noConfusion h
        · exact ihA i' p' hge hget' hlen' hinit' f
      · intro j hj
        exact ihB j (by omega)
      · intro f j
        rw [ihC f j]
        constructor
        · rintro (h | ⟨hij, rest'⟩)
          · exact .inl h
          · exact .inr ⟨by omega, rest'⟩
        · rintro (h | ⟨hij, p', fl, hget', hlen', hinit', hrest'⟩)
          · exact .inl h
          · refine .inr ⟨?_, p', fl, hget', hlen', hinit', hrest'⟩
            rcases Nat.lt_or_ge j (i + 1) with hlt | hge
            · exfalso
              have hji : j = i := by omega
              subst hji
              rw [hgeti] at hget'
              rcases hskip with h | h
              · exact hlen' (by injection hget' with hh; rw [← hh]; exact h)
              · rw [hinit'] at h
                exact Bool.noConfusion h
            · omega
    · rw [if_neg hskip]
      push_neg at hskip
      obtain ⟨hplen, hinit⟩ := hskip
      have hinit' : init i = false := by simpa using hinit
      have hgood' : GoodCursor files pieces (i + 1)
          (scanFiles files p.offset (p.offset + p.length - 1) cur).1 :=
        cursor_advance files pieces i cur p hfo hpo hgeti hplen hgood
      obtain ⟨ihA, ihB, ihC⟩ := ih (i + 1)
        (scanFiles files p.offset (p.offset + p.length - 1) cur).1
        { fp := fun x => if x ∈ (scanFiles files p.offset (p.offset + p.length - 1) cur).2
            then List.insert i (m.fp x) else m.fp x
          fpDom := m.fpDom
          pf := fun x => if x = i
            then (scanFiles files p.offset (p.offset + p.length - 1) cur).2 else m.pf x
          pfDom := List.insert i m.pfDom }
        rs hrest hgood'
      refine ⟨?_, ?_, ?_⟩
      · intro i' p' hi' hget' hlen' hinit'' f
        rcases Nat.lt_or_ge i' (i + 1) with hlt | hge
        · have hii : i' = i := by omega
          subst hii
          rw [ihB i' (by omega)]
          simp only [if_pos rfl]
          rw [hgeti] at hget'
          have hpp : p = p' := by injection hget'
          subst hpp
          exact scan_exact files pieces i' cur p hgeti hplen hgood f
        · exact ihA i' p' hge hget' hlen' hinit'' f
      · intro j hj
        rw [ihB j (by omega)]
        simp only
        rw [if_neg (by omega)]
      · intro f j
        rw [ihC f j]
        have hm' : (j ∈ (if f ∈ (scanFiles files p.offset (p.offset + p.length - 1) cur).2
            then List.insert i (m.fp f) else m.fp f)) ↔
            j ∈ m.fp f ∨ (j = i ∧
              f ∈ (scanFiles files p.offset (p.offset + p.length - 1) cur).2) := by
          by_cases hfm : f ∈ (scanFiles files p.offset (p.offset + p.length - 1) cur).2
          · rw [if_pos hfm, List.mem_insert_iff]
            constructor
            · rintro (rfl | h)
              · exact .inr ⟨rfl, hfm⟩
              · exact .inl h
            · rintro (h | ⟨rfl, _⟩)
              · exact .inr h
              · exact .inl rfl
          · rw [if_neg hfm]
            constructor
            · intro h; exact .inl h
            · rintro (h | ⟨_, hc⟩)
              · exact h
              · exact absurd hc hfm
        rw [hm']
        have hscan := scan_exact files pieces i cur p hgeti hplen hgood f
        constructor
        · rintro ((h | ⟨rfl, hfm⟩) | ⟨hij, rest'⟩)
          · exact .inl h
          · obtain ⟨fl, hfl, hfll, hov⟩ := hscan.mp hfm
            exact .inr ⟨le_refl j, p, fl, hgeti, hplen, hinit', hfl, hfll, hov⟩
          · exact .inr ⟨by omega, rest'⟩
        · rintro (h | ⟨hij, p', fl, hget', hplen', hinit'', hfl, hfll, hov⟩)
          · exact .inl (.inl h)
          · rcases Nat.lt_or_ge j (i + 1) with hlt | hge
            · have hji : j = i := by omega
              subst hji
              rw [hgeti] at hget'
              have hpp : p = p' := by injection hget'
              subst hpp
              exact .inl (.inr ⟨rfl, hscan.mpr ⟨fl, hfl, hfll, hov⟩⟩)
            · exact .inr ⟨hge, p', fl, hget', hplen', hinit'', hfl, hfll, hov⟩

/-- Bridges from decidable forms on concrete lists to the indexed forms. -/
theorem filesOrdered_of_pairwise {files : List TFile}
    (h : files.Pairwise (fun a b => a.offset + a.length ≤ b.offset)) : FilesOrdered files := by
  intro k k' fk fk' hlt hk hk'
  obtain ⟨hb, hv⟩ := List.get?_eq_some.mp hk
  obtain ⟨hb', hv'⟩ := List.get?_eq_some.mp hk'
  rw [List.pairwise_iff_get] at h
  have := h ⟨k, hb⟩ ⟨k', hb'⟩ hlt
  rw [hv, hv'] at this
  exact this

theorem piecesOrdered_of_pairwise {pieces : List TPiece}
    (h : pieces.Pairwise (fun a b => a.offset + a.length ≤ b.offset)) : PiecesOrdered pieces := by
  intro k k' pk pk' hlt hk hk'
  obtain ⟨hb, hv⟩ := List.get?_eq_some.mp hk
  obtain ⟨hb', hv'⟩ := List.get?_eq_some.mp hk'
  rw [List.pairwise_iff_get] at h
  have := h ⟨k, hb⟩ ⟨k', hb'⟩ hlt
  rw [hv, hv'] at this
  exact this

theorem filesContiguous_of_chain {files : List TFile}
    (h : files.Chain' (fun a b => b.offset = a.offset + a.length)) : FilesContiguous files := by
  intro k fk fk' hk hk'
  obtain ⟨hb, hv⟩ := List.get?_eq_some.mp hk
  obtain ⟨hb', hv'⟩ := List.get?_eq_some.mp hk'
  rw [List.chain'_iff_get] at h
  have h2 : ∀ (p1 : k + 1 < files.length) (p2 : k < files.length),
      (files.get ⟨k + 1, p1⟩).offset =
        (files.get ⟨k, p2⟩).offset + (files.get ⟨k, p2⟩).length :=
    fun p1 p2 => h k (by omega)
  have := h2 hb' hb
  rw [hv, hv'] at this
  exact this

theorem piecesContiguous_of_chain {pieces : List TPiece}
    (h : pieces.Chain' (fun a b => b.offset = a.offset + a.length)) : PiecesContiguous pieces := by
  intro k pk pk' hk hk'
  obtain ⟨hb, hv⟩ := List.get?_eq_some.mp hk
  obtain ⟨hb', hv'⟩ := List.get?_eq_some.mp hk'
  rw [List.chain'_iff_get] at h
  have h2 : ∀ (p1 : k + 1 < pieces.length) (p2 : k < pieces.length),
      (pieces.get ⟨k + 1, p1⟩).offset =
        (pieces.get ⟨k, p2⟩).offset + (pieces.get ⟨k, p2⟩).length :=
    fun p1 p2 => h k (by omega)
  have := h2 hb' hb
  rw [hv, hv'] at this
  exact this

theorem filesNonNeg_of_forall {files : List TFile}
    (h : ∀ fk ∈ files, 0 ≤ fk.length) : FilesNonNeg files := by
  intro k fk hk
  exact h fk (List.get?_mem hk)

theorem piecesNonNeg_of_forall {pieces : List TPiece}
    (h : ∀ pk ∈ pieces, 0 ≤ pk.length) : PiecesNonNeg pieces := by
  intro k pk hk
  exact h pk (List.get?_mem hk)

/-- Concrete geometry refuting C3 as stated: a zero-length file strictly
inside a piece satisfies the spec's `b > c && d > a` condition but is
excluded from the maps. -/
def c3files : List TFile := [⟨0, 10⟩, ⟨10, 0⟩, ⟨10, 10⟩]

def c3pieces : List TPiece := [⟨0, 20⟩]

/-- **C3, counterexample.** On sorted, non-overlapping, contiguous lists the
sweep's set for piece 0 omits file 1 even though file 1's range satisfies the
claimed overlap condition — because the code skips zero-length files. -/
theorem C3_counterexample_zero_length_file :
    FilesOrdered c3files ∧ FilesContiguous c3files ∧ FilesNonNeg c3files ∧
    PiecesOrdered c3pieces ∧ PiecesContiguous c3pieces ∧ PiecesNonNeg c3pieces ∧
    c3files.get? 1 = some ⟨10, 0⟩ ∧ c3pieces.get? 0 = some ⟨0, 20⟩ ∧
    specOvl ⟨10, 0⟩ ⟨0, 20⟩ ∧
    1 ∉ (sweepPieces c3files (fun _ => false) 0 c3pieces 0 (RMaps.init 3)
      RunState.init).1.pf 0 ∧
    (sweepPieces c3files (fun _ => false) 0 c3pieces 0 (RMaps.init 3)
      RunState.init).1.fp 1 = [] := by
  exact ⟨filesOrdered_of_pairwise (by decide), filesContiguous_of_chain (by simp [List.chain'_cons, c3files]),
    filesNonNeg_of_forall (by decide), piecesOrdered_of_pairwise (by decide),
    piecesContiguous_of_chain (by simp [List.chain'_cons, c3pieces]), piecesNonNeg_of_forall (by decide),
    rfl, rfl, by decide, by decide, by decide⟩

/-- **C3, amended.** For sorted, non-overlapping, contiguous file and piece
lists, the sweep computes, for every nonzero-length piece not already
complete, exactly the set of NONZERO-LENGTH files whose range satisfies
`b > c && d > a` against the piece's range, and for every file exactly the
set of such pieces overlapping it (the empty set for a zero-length file) —
despite the reused advancing cursor, and also for pieces spanning several
files. -/
theorem C3_sweep_overlap_exact (files : List TFile) (pieces : List TPiece)
    (init : Nat → Bool) (rs : RunState)
    (hfnn : FilesNonNeg files) (hfo : FilesOrdered files) (hfc : FilesContiguous files)
    (hpnn : PiecesNonNeg pieces) (hpo : PiecesOrdered pieces) (hpc : PiecesContiguous pieces) :
    (∀ i p, pieces.get? i = some p → p.length ≠ 0 → init i = false →
      ∀ f, f ∈ (sweepPieces files init 0 pieces 0 (RMaps.init files.length) rs).1.pf i ↔
        ∃ fl, files.get? f = some fl ∧ fl.length ≠ 0 ∧ specOvl fl p) ∧
    (∀ f j, j ∈ (sweepPieces files init 0 pieces 0 (RMaps.init files.length) rs).1.fp f ↔
      ∃ p fl, pieces.get? j = some p ∧ p.length ≠ 0 ∧ init j = false ∧
        files.get? f = some fl ∧ fl.length ≠ 0 ∧ specOvl fl p) := by
  obtain ⟨hA, _, hC⟩ := sweep_maps_exact files pieces init hfo hpo pieces 0 0
    (RMaps.init files.length) rs (by simp)
    (fun i' p' _ _ _ f fl _ _ _ => Nat.zero_le f)
  constructor
  · intro i p hget hlen hinit f
    rw [hA i p (Nat.zero_le i) hget hlen hinit f]
    constructor
    · rintro ⟨fl, h1, h2, h3⟩
      exact ⟨fl, h1, h2, (ovl_iff_specOvl fl p).mp h3⟩
    · rintro ⟨fl, h1, h2, h3⟩
      exact ⟨fl, h1, h2, (ovl_iff_specOvl fl p).mpr h3⟩
  · intro f j
    rw [hC f j]
    constructor
    · rintro (h | ⟨_, p, fl, h1, h2, h3, h4, h5, h6⟩)
      · simp [RMaps.init] at h
      · exact ⟨p, fl, h1, h2, h3, h4, h5, (ovl_iff_specOvl fl p).mp h6⟩
    · rintro ⟨p, fl, h1, h2, h3, h4, h5, h6⟩
      exact .inr ⟨Nat.zero_le j, p, fl, h1, h2, h3, h4, h5, (ovl_iff_specOvl fl p).mpr h6⟩

/-- Concrete well-formed geometry for the C3 and C10 witnesses. -/
def wfiles : List TFile := [⟨0, 10⟩, ⟨10, 10⟩]

def wpieces : List TPiece := [⟨0, 10⟩, ⟨10, 10⟩]

theorem wfiles_ordered : FilesOrdered wfiles :=
  filesOrdered_of_pairwise (by decide)

theorem wfiles_contig : FilesContiguous wfiles :=
  filesContiguous_of_chain (by simp [List.chain'_cons, wfiles])

theorem wfiles_nonneg : FilesNonNeg wfiles :=
  filesNonNeg_of_forall (by decide)

theorem wpieces_ordered : PiecesOrdered wpieces :=
  piecesOrdered_of_pairwise (by decide)

theorem wpieces_contig : PiecesContiguous wpieces :=
  piecesContiguous_of_chain (by simp [List.chain'_cons, wpieces])

theorem wpieces_nonneg : PiecesNonNeg wpieces :=
  piecesNonNeg_of_forall (by decide)

theorem C3_sweep_overlap_exact_witness :
    0 ∈ (sweepPieces wfiles (fun _ => false) 0 wpieces 0 (RMaps.init 2)
      RunState.init).1.pf 0 ∧
    1 ∉ (sweepPieces wfiles (fun _ => false) 0 wpieces 0 (RMaps.init 2)
      RunState.init).1.pf 0 := by
  have h := C3_sweep_overlap_exact wfiles wpieces (fun _ => false) RunState.init
    wfiles_nonneg wfiles_ordered wfiles_contig wpieces_nonneg wpieces_ordered wpieces_contig
  constructor
  · exact (h.1 0 ⟨0, 10⟩ rfl (by decide) rfl 0).mpr ⟨⟨0, 10⟩, rfl, by decide, by decide⟩
  · intro hmem
    obtain ⟨fl, hfl, _, hov⟩ := (h.1 0 ⟨0, 10⟩ rfl (by decide) rfl 1).mp hmem
    have : fl = (⟨10, 10⟩ : TFile) := by
      rw [show wfiles.get? 1 = some ⟨10, 10⟩ from rfl] at hfl
      injection hfl with hh
      exact hh.symm
    subst this
    revert hov
    decide

/-- **C10.** `getPieceIndices(file)` returns exactly the indices, in strictly
increasing order, of the pieces whose range satisfies the overlap condition
against the file's range (and the empty list for a zero-length file); and for
sorted, non-overlapping lists, restricted to nonzero-length pieces not
already complete it coincides with the piece sets of `incompleteFilePieces`
computed by the cursor-based sweep. -/
theorem C10_getPieceIndices_refines (files : List TFile) (pieces : List TPiece)
    (init : Nat → Bool) (rs : RunState)
    (hfo : FilesOrdered files) (hpo : PiecesOrdered pieces) :
    (∀ fl : TFile, fl.length = 0 → getPieceIndices pieces fl = []) ∧
    (∀ (fl : TFile) (x : Nat), x ∈ getPieceIndices pieces fl ↔
      fl.length ≠ 0 ∧ ∃ p, pieces.get? x = some p ∧ specOvl fl p) ∧
    (∀ fl : TFile, (getPieceIndices pieces fl).Pairwise (· < ·)) ∧
    (∀ f fl, files.get? f = some fl → ∀ j,
      j ∈ (sweepPieces files init 0 pieces 0 (RMaps.init files.length) rs).1.fp f ↔
        (j ∈ getPieceIndices pieces fl ∧
          ∃ p, pieces.get? j = some p ∧ p.length ≠ 0 ∧ init j = false)) := by
  refine ⟨fun fl h => (getPieceIndices_exact pieces fl).2.2 h,
    fun fl x => (getPieceIndices_exact pieces fl).1 x,
    fun fl => (getPieceIndices_exact pieces fl).2.1, ?_⟩
  intro f fl hf j
  obtain ⟨_, _, hC⟩ := sweep_maps_exact files pieces init hfo hpo pieces 0 0
    (RMaps.init files.length) rs (by simp)
    (fun i' p' _ _ _ f fl _ _ _ => Nat.zero_le f)
  rw [hC f j]
  constructor
  · rintro (h | ⟨_, p, fl', h1, h2, h3, h4, h5, h6⟩)
    · simp [RMaps.init] at h
    · have hfl : fl' = fl := by
        rw [hf] at h4
        injection h4 with hh
        exact hh.symm
      rw [hfl] at h5 h6
      exact ⟨((getPieceIndices_exact pieces fl).1 j).mpr
        ⟨h5, p, h1, (ovl_iff_specOvl fl p).mp h6⟩, p, h1, h2, h3⟩
  · rintro ⟨hmem, p, h1, h2, h3⟩
    obtain ⟨hfl, p', h1', hov⟩ := ((getPieceIndices_exact pieces fl).1 j).mp hmem
    have hpp : p' = p := by
      rw [h1] at h1'
      injection h1' with hh
      exact hh.symm
    rw [hpp] at hov
    exact .inr ⟨Nat.zero_le j, p, fl, h1, h2, h3, hf, hfl,
      (ovl_iff_specOvl fl p).mpr hov⟩

theorem C10_getPieceIndices_refines_witness :
    getPieceIndices wpieces ⟨0, 10⟩ = [0] ∧
    0 ∈ (sweepPieces wfiles (fun _ => false) 0 wpieces 0 (RMaps.init 2)
      RunState.init).1.fp 0 := by
  have h := C10_getPieceIndices_refines wfiles wpieces (fun _ => false) RunState.init
    wfiles_ordered wpieces_ordered
  refine ⟨by decide, ?_⟩
  exact (h.2.2.2 0 ⟨0, 10⟩ rfl 0).mpr ⟨by decide, ⟨0, 10⟩, rfl, by decide, rfl⟩

/-! ## C2/C5/C8: machinery over the `Events` transition system -/

/-- The main goroutine's program order.  Every transition of `mainStepF`
strictly increases this rank (or leaves the state unchanged), including the
jumps into `sendClosed` from any stage's `Closed` branch and into `returning`
from any stage's `done` branch. -/
def mainRank : MainPC → Nat
  | .selAdded => 0
  | .sendAdded => 1
  | .selGotInfo => 2
  | .sendGotInfo => 3
  | .selChansReady => 4
  | .wgWait => 5
  | .selDownload => 6
  | .sendDownload => 7
  | .selSeeding => 8
  | .sendSeeding => 9
  | .selClosed => 10
  | .sendClosed => 11
  | .returning => 12
  | .finished => 13

theorem mainStepF_rank (nFiles : Nat) (st : EState) (k : Nat) :
    mainRank st.main ≤ mainRank (mainStepF nFiles st k).main := by
  obtain ⟨sigs, main, spawned, pw, fw, delivered⟩ := st
  cases main <;> simp only [mainStepF, mainRank] <;> (try split_ifs) <;> simp [mainRank]

theorem estep_rank (files : List TFile) (pieces : List TPiece) (st : EState) (a : EAct) :
    mainRank st.main ≤ mainRank (estep files pieces st a).main := by
  cases a with
  | envClose s => exact le_refl _
  | mainStep k => exact mainStepF_rank files.length st k
  | pieceStep i k =>
    show mainRank st.main ≤ mainRank (pieceStepF pieces.length st i k).main
    unfold pieceStepF
    split_ifs <;> rfl
  | fileStep f k =>
    show mainRank st.main ≤ mainRank (fileStepF files pieces st f k).main
    unfold fileStepF
    split
    · split <;> first | (split_ifs <;> rfl) | rfl
    · rfl
  | pieceSend i =>
    show mainRank st.main ≤ mainRank (pieceSendF st i).main
    unfold pieceSendF
    split_ifs <;> rfl
  | fileSend f =>
    show mainRank st.main ≤ mainRank (fileSendF st f).main
    unfold fileSendF
    split_ifs <;> rfl

/-- The global invariant of one subscriber's stream: which events can already
have been received is tied to the main goroutine's progress, the per-file
workers are all finished before `DownloadDone` is received, and a worker that
emitted has its event in the received list. -/
def EInv (files : List TFile) (pieces : List TPiece) (st : EState) : Prop :=
  (st.spawned = false →
    (∀ i, st.pw i = .waiting) ∧ (∀ f, st.fw f = .waiting) ∧
    (∀ i, EvT.pieceDone i ∉ st.delivered) ∧ (∀ f, EvT.fileDone f ∉ st.delivered)) ∧
  (st.spawned = true → 5 ≤ mainRank st.main) ∧
  (EvT.added ∈ st.delivered → 2 ≤ mainRank st.main) ∧
  (EvT.gotInfo ∈ st.delivered → 4 ≤ mainRank st.main) ∧
  (EvT.downloadDone ∈ st.delivered → 8 ≤ mainRank st.main ∧
    ∀ f, f < files.length → ∃ b, st.fw f = .finished b) ∧
  (EvT.seedingDone ∈ st.delivered → 10 ≤ mainRank st.main) ∧
  (EvT.closedEv ∈ st.delivered → 12 ≤ mainRank st.main) ∧
  (∀ f, files.length ≤ f → st.fw f = .waiting) ∧
  (∀ i, pieces.length ≤ i → st.pw i = .waiting) ∧
  (6 ≤ mainRank st.main → mainRank st.main ≤ 10 →
    ∀ f, f < files.length → ∃ b, st.fw f = .finished b) ∧
  (11 ≤ mainRank st.main →
    st.spawned = false ∨ ∀ f, f < files.length → ∃ b, st.fw f = .finished b) ∧
  (∀ f, st.fw f = .finished true → EvT.fileDone f ∈ st.delivered) ∧
  (∀ i, st.pw i = .finished true → EvT.pieceDone i ∈ st.delivered)

theorem EInv_init (files : List TFile) (pieces : List TPiece) :
    EInv files pieces EState.init := by
  unfold EInv EState.init
  refine ⟨?_, ?_, ?_, ?_, ?_, ?_, ?_, ?_, ?_, ?_, ?_, ?_, ?_⟩ <;>
    simp [mainRank]

theorem EInv_envClose (files : List TFile) (pieces : List TPiece) (st : EState) (s : ESig)
    (h : EInv files pieces st) : EInv files pieces (estep files pieces st (.envClose s)) := by
  exact h

theorem EInv_pieceStep (files : List TFile) (pieces : List TPiece) (st : EState) (i k : Nat)
    (h : EInv files pieces st) : EInv files pieces (estep files pieces st (.pieceStep i k)) := by
  obtain ⟨sigs, main, spawned, pw, fw, delivered⟩ := st
  obtain ⟨ha, hb, he, hf, hg, hsd, hcl, hhf, hhp, hk, hl, hmf, hmp⟩ := h
  show EInv files pieces (pieceStepF pieces.length ⟨sigs, main, spawned, pw, fw, delivered⟩ i k)
  unfold pieceStepF
  split_ifs with h1 h2 h3 h4
  case neg => exact ⟨ha, hb, he, hf, hg, hsd, hcl, hhf, hhp, hk, hl, hmf, hmp⟩
  all_goals try exact ⟨ha, hb, he, hf, hg, hsd, hcl, hhf, hhp, hk, hl, hmf, hmp⟩
  all_goals (
    simp only at h1 ⊢
    refine ⟨?_, hb, he, hf, hg, hsd, hcl, hhf, ?_, hk, hl, hmf, ?_⟩
    · intro hsp
      exact Bool.noConfusion (h1.1.symm.trans hsp)
    · intro i' hi'
      by_cases hii : i' = i
      · subst hii
        exact absurd h1.2.1 (by omega)
      · simpa [hii] using hhp i' hi'
    · intro i' hpi'
      by_cases hii : i' = i
      · subst hii
        simp at hpi'
      · simp [hii] at hpi'
        exact hmp i' hpi')

theorem EInv_fileStep (files : List TFile) (pieces : List TPiece) (st : EState) (f k : Nat)
    (h : EInv files pieces st) : EInv files pieces (estep files pieces st (.fileStep f k)) := by
  obtain ⟨sigs, main, spawned, pw, fw, delivered⟩ := st
  obtain ⟨ha, hb, he, hf', hg, hsd, hcl, hhf, hhp, hk, hl, hmf, hmp⟩ := h
  show EInv files pieces (fileStepF files pieces ⟨sigs, main, spawned, pw, fw, delivered⟩ f k)
  unfold fileStepF
  split
  case isFalse => exact ⟨ha, hb, he, hf', hg, hsd, hcl, hhf, hhp, hk, hl, hmf, hmp⟩
  rename_i h1
  simp only at h1
  split
  case h_3 => exact ⟨ha, hb, he, hf', hg, hsd, hcl, hhf, hhp, hk, hl, hmf, hmp⟩
  case h_1 =>
    rename_i hfw
    simp only at hfw
    split_ifs with h2 h3 h4
    all_goals try exact ⟨ha, hb, he, hf', hg, hsd, hcl, hhf, hhp, hk, hl, hmf, hmp⟩
    all_goals (
      refine ⟨?_, hb, he, hf', ?_, hsd, hcl, ?_, hhp, ?_, ?_, ?_, hmp⟩
      · intro hsp
        exact Bool.noConfusion (h1.1.symm.trans hsp)
      · intro hdd
        refine ⟨(hg hdd).1, ?_⟩
        intro f' hflt
        obtain ⟨b, hbb⟩ := (hg hdd).2 f' hflt
        by_cases hff : f' = f
        · subst hff
          exact absurd (hbb.symm.trans hfw) (by simp)
        · exact ⟨b, by simpa [hff] using hbb⟩
      · intro f' hge
        by_cases hff : f' = f
        · subst hff
          exact absurd h1.2 (by omega)
        · simpa [hff] using hhf f' hge
      · intro hr1 hr2 f' hflt
        obtain ⟨b, hbb⟩ := hk hr1 hr2 f' hflt
        by_cases hff : f' = f
        · subst hff
          exact absurd (hbb.symm.trans hfw) (by simp)
        · exact ⟨b, by simpa [hff] using hbb⟩
      · intro hr
        rcases hl hr with hsp | hfin
        · exact absurd hsp (by simp [h1.1])
        · right
          intro f' hflt
          obtain ⟨b, hbb⟩ := hfin f' hflt
          by_cases hff : f' = f
          · subst hff
            exact absurd (hbb.symm.trans hfw) (by simp)
          · exact ⟨b, by simpa [hff] using hbb⟩
      · intro f' hfw'
        by_cases hff : f' = f
        · subst hff
          simp at hfw'
        · simp [hff] at hfw'
          exact hmf f' hfw')
  case h_2 =>
    rename_i hfw
    simp only at hfw
    split
    case isFalse => exact ⟨ha, hb, he, hf', hg, hsd, hcl, hhf, hhp, hk, hl, hmf, hmp⟩
    refine ⟨?_, hb, he, hf', ?_, hsd, hcl, ?_, hhp, ?_, ?_, ?_, hmp⟩
    · intro hsp
      exact Bool.noConfusion (h1.1.symm.trans hsp)
    · intro hdd
      refine ⟨(hg hdd).1, ?_⟩
      intro f' hflt
      obtain ⟨b, hbb⟩ := (hg hdd).2 f' hflt
      by_cases hff : f' = f
      · subst hff
        exact absurd (hbb.symm.trans hfw) (by simp)
      · exact ⟨b, by simpa [hff] using hbb⟩
    · intro f' hge
      by_cases hff : f' = f
      · subst hff
        exact absurd h1.2 (by omega)
      · simpa [hff] using hhf f' hge
    · intro hr1 hr2 f' hflt
      obtain ⟨b, hbb⟩ := hk hr1 hr2 f' hflt
      by_cases hff : f' = f
      · subst hff
        exact absurd (hbb.symm.trans hfw) (by simp)
      · exact ⟨b, by simpa [hff] using hbb⟩
    · intro hr
      rcases hl hr with hsp | hfin
      · exact absurd hsp (by simp [h1.1])
      · right
        intro f' hflt
        obtain ⟨b, hbb⟩ := hfin f' hflt
        by_cases hff : f' = f
        · subst hff
          exact absurd (hbb.symm.trans hfw) (by simp)
        · exact ⟨b, by simpa [hff] using hbb⟩
    · intro f' hfw'
      by_cases hff : f' = f
      · subst hff
        simp at hfw'
      · simp [hff] at hfw'
        exact hmf f' hfw'

theorem EInv_pieceSend (files : List TFile) (pieces : List TPiece) (st : EState) (i : Nat)
    (h : EInv files pieces st) : EInv files pieces (estep files pieces st (.pieceSend i)) := by
  obtain ⟨sigs, main, spawned, pw, fw, delivered⟩ := st
  show EInv files pieces (pieceSendF ⟨sigs, main, spawned, pw, fw, delivered⟩ i)
  obtain ⟨ha, hb, he, hf, hg, hsd, hcl, hhf, hhp, hk, hl, hmf, hmp⟩ := h
  unfold pieceSendF
  split
  case isFalse => exact ⟨ha, hb, he, hf, hg, hsd, hcl, hhf, hhp, hk, hl, hmf, hmp⟩
  rename_i h1
  simp only at h1 ⊢
  refine ⟨?_, hb, ?_, ?_, ?_, ?_, ?_, hhf, ?_, hk, hl, ?_, ?_⟩
  · intro hsp
    exact absurd (((ha hsp).1 i).symm.trans h1.1) (by simp)
  · intro hx
    simp only [List.mem_append, List.mem_singleton] at hx
    rcases hx with hx | hx
    · exact he hx
    · cases hx
  · intro hx
    simp only [List.mem_append, List.mem_singleton] at hx
    rcases hx with hx | hx
    · exact hf hx
    · cases hx
  · intro hx
    simp only [List.mem_append, List.mem_singleton] at hx
    rcases hx with hx | hx
    · exact hg hx
    · cases hx
  · intro hx
    simp only [List.mem_append, List.mem_singleton] at hx
    rcases hx with hx | hx
    · exact hsd hx
    · cases hx
  · intro hx
    simp only [List.mem_append, List.mem_singleton] at hx
    rcases hx with hx | hx
    · exact hcl hx
    · cases hx
  · intro i' hi'
    by_cases hii : i' = i
    · subst hii
      exact absurd ((hhp i' hi').symm.trans h1.1) (by simp)
    · simpa [hii] using hhp i' hi'
  · intro f' hff
    exact List.mem_append_left _ (hmf f' hff)
  · intro i' hpi'
    by_cases hii : i' = i
    · subst hii
      simp
    · simp [hii] at hpi'
      exact List.mem_append_left _ (hmp i' hpi')

theorem EInv_fileSend (files : List TFile) (pieces : List TPiece) (st : EState) (f : Nat)
    (h : EInv files pieces st) : EInv files pieces (estep files pieces st (.fileSend f)) := by
  obtain ⟨sigs, main, spawned, pw, fw, delivered⟩ := st
  show EInv files pieces (fileSendF ⟨sigs, main, spawned, pw, fw, delivered⟩ f)
  obtain ⟨ha, hb, he, hf, hg, hsd, hcl, hhf, hhp, hk, hl, hmf, hmp⟩ := h
  unfold fileSendF
  split
  case isFalse => exact ⟨ha, hb, he, hf, hg, hsd, hcl, hhf, hhp, hk, hl, hmf, hmp⟩
  rename_i h1
  simp only at h1 ⊢
  refine ⟨?_, hb, ?_, ?_, ?_, ?_, ?_, ?_, hhp, ?_, ?_, ?_, ?_⟩
  · intro hsp
    exact absurd (((ha hsp).2.1 f).symm.trans h1.1) (by simp)
  · intro hx
    simp only [List.mem_append, List.mem_singleton] at hx
    rcases hx with hx | hx
    · exact he hx
    · cases hx
  · intro hx
    simp only [List.mem_append, List.mem_singleton] at hx
    rcases hx with hx | hx
    · exact hf hx
    · cases hx
  · intro hx
    simp only [List.mem_append, List.mem_singleton] at hx
    rcases hx with hx | hx
    · refine ⟨(hg hx).1, ?_⟩
      intro f' hflt
      by_cases hff : f' = f
      · exact ⟨true, by simp [hff]⟩
      · obtain ⟨b, hbb⟩ := (hg hx).2 f' hflt
        exact ⟨b, by simpa [hff] using hbb⟩
    · cases hx
  · intro hx
    simp only [List.mem_append, List.mem_singleton] at hx
    rcases hx with hx | hx
    · exact hsd hx
    · cases hx
  · intro hx
    simp only [List.mem_append, List.mem_singleton] at hx
    rcases hx with hx | hx
    · exact hcl hx
    · cases hx
  · intro f' hge
    by_cases hff : f' = f
    · subst hff
      exact absurd ((hhf f' hge).symm.trans h1.1) (by simp)
    · simpa [hff] using hhf f' hge
  · intro hr1 hr2 f' hflt
    by_cases hff : f' = f
    · exact ⟨true, by simp [hff]⟩
    · obtain ⟨b, hbb⟩ := hk hr1 hr2 f' hflt
      exact ⟨b, by simpa [hff] using hbb⟩
  · intro hr
    rcases hl hr with hsp | hfin
    · exact .inl hsp
    · right
      intro f' hflt
      by_cases hff : f' = f
      · exact ⟨true, by simp [hff]⟩
      · obtain ⟨b, hbb⟩ := hfin f' hflt
        exact ⟨b, by simpa [hff] using hbb⟩
  · intro f' hff
    by_cases hff2 : f' = f
    · subst hff2
      simp
    · simp [hff2] at hff
      exact List.mem_append_left _ (hmf f' hff)
  · intro i' hpi'
    exact List.mem_append_left _ (hmp i' hpi')

theorem EInv_mainStep (files : List TFile) (pieces : List TPiece) (st : EState) (k : Nat)
    (h : EInv files pieces st) : EInv files pieces (estep files pieces st (.mainStep k)) := by
  obtain ⟨sigs, main, spawned, pw, fw, delivered⟩ := st
  unfold EInv at h ⊢
  dsimp only at h
  obtain ⟨ha, hb, he, hf, hg, hsd, hcl, hhf, hhp, hk, hl, hmf, hmp⟩ := h
  cases main
  all_goals dsimp only [estep, mainStepF]
  all_goals try split_ifs with h1 h2 h3
  all_goals try dsimp only
  all_goals try exact ⟨ha, hb, he, hf, hg, hsd, hcl, hhf, hhp, hk, hl, hmf, hmp⟩
  all_goals refine ⟨?_, ?_, ?_, ?_, ?_, ?_, ?_, ?_, ?_, ?_, ?_, ?_, ?_⟩
  all_goals first
    | exact hhf
    | exact hhp
    | exact ha
    | exact hmf
    | exact hmp
    | (intro _; decide)
    | (intro hsp; exact absurd hsp (by decide))
    | (intro hsp; exact absurd (hb hsp) (by decide))
    | (intro hx; exact absurd (he hx) (by decide))
    | (intro hx; exact absurd (hf hx) (by decide))
    | (intro hx; exact absurd (hg hx).1 (by decide))
    | (intro hx; exact absurd (hsd hx) (by decide))
    | (intro hx; exact absurd (hcl hx) (by decide))
    | (intro hx; exact ⟨by decide, (hg hx).2⟩)
    | (intro _; exact ⟨by decide, fun f' hflt => hk (by decide) (by decide) f' hflt⟩)
    | (intro hsp
       obtain ⟨x1, x2, x3, x4⟩ := ha hsp
       refine ⟨x1, x2, ?_, ?_⟩ <;> intro z <;>
         simp only [List.mem_append, List.mem_singleton] <;>
         rintro (hz | hz) <;> first
           | exact x3 z hz
           | exact x4 z hz
           | cases hz)
    | (intro hx
       simp only [List.mem_append, List.mem_singleton] at hx
       rcases hx with hx | hx
       · exact absurd (he hx) (by decide)
       · cases hx)
    | (intro hx
       simp only [List.mem_append, List.mem_singleton] at hx
       rcases hx with hx | hx
       · exact absurd (hf hx) (by decide)
       · cases hx)
    | (intro hx
       simp only [List.mem_append, List.mem_singleton] at hx
       rcases hx with hx | hx
       · exact absurd (hg hx).1 (by decide)
       · cases hx)
    | (intro hx
       simp only [List.mem_append, List.mem_singleton] at hx
       rcases hx with hx | hx
       · exact absurd (hsd hx) (by decide)
       · cases hx)
    | (intro hx
       simp only [List.mem_append, List.mem_singleton] at hx
       rcases hx with hx | hx
       · exact absurd (hcl hx) (by decide)
       · cases hx)
    | (intro hx
       simp only [List.mem_append, List.mem_singleton] at hx
       rcases hx with hx | hx
       · exact ⟨by decide, (hg hx).2⟩
       · cases hx)
    | (intro hr1 hr2; exact absurd hr1 (by decide))
    | (intro hr1 hr2; exact absurd hr2 (by decide))
    | (intro _ _ f' hflt; exact h1 f' (List.mem_range.mpr hflt))
    | (intro _ _ f' hflt; exact hk (by decide) (by decide) f' hflt)
    | (intro hr; exact absurd hr (by decide))
    | (intro _
       cases hspn : spawned
       · exact .inl rfl
       · exact absurd (hb hspn) (by decide))
    | (intro _; exact .inr (fun f' hflt => hk (by decide) (by decide) f' hflt))
    | (intro _; exact hl (by decide))
    | (intro z hz; exact List.mem_append_left _ (hmf z hz))
    | (intro z hz; exact List.mem_append_left _ (hmp z hz))

theorem precedes_snoc {α : Type} {x y e : α} {d : List α} (h : Precedes x y d)
    (hxy : x ≠ y) (he : e = x → y ∉ d) : Precedes x y (d ++ [e]) := by
  intro i j hi hj
  rcases Nat.lt_or_ge j d.length with hjd | hjd
  · have hj' : d.get? j = some y := by
      rw [List.get?_append hjd] at hj
      exact hj
    rcases Nat.lt_or_ge i d.length with hid | hid
    · exact h i j (by rw [List.get?_append hid] at hi; exact hi) hj'
    · exfalso
      have : i = d.length := by
        rcases Nat.lt_or_ge i (d.length + 1) with h1 | h1
        · omega
        · rw [List.get?_eq_none.mpr (by simp; omega)] at hi
          cases hi
      subst this
      have hex : e = x := by
        rw [List.get?_append_right (by omega)] at hi
        simp at hi
        exact hi
      exact he hex (List.get?_mem hj')
  · have hjlen : j = d.length := by
      rcases Nat.lt_or_ge j (d.length + 1) with h1 | h1
      · omega
      · rw [List.get?_eq_none.mpr (by simp; omega)] at hj
        cases hj
    subst hjlen
    have hey : e = y := by
      rw [List.get?_append_right (by omega)] at hj
      simp at hj
      exact hj
    rcases Nat.lt_or_ge i d.length with hid | hid
    · omega
    · exfalso
      have : i = d.length := by
        rcases Nat.lt_or_ge i (d.length + 1) with h1 | h1
        · omega
        · rw [List.get?_eq_none.mpr (by simp; omega)] at hi
          cases hi
      subst this
      have hex : e = x := by
        rw [List.get?_append_right (by omega)] at hi
        simp at hi
        exact hi
      exact hxy (hex.symm.trans hey)

/-- Which event a step may append to `delivered`, with the state fact that
makes the append possible. -/
def AppendOK (st : EState) : EvT → Prop
  | .added => st.main = .sendAdded
  | .gotInfo => st.main = .sendGotInfo
  | .downloadDone => st.main = .sendDownload
  | .seedingDone => st.main = .sendSeeding
  | .closedEv => st.main = .sendClosed
  | .pieceDone _ => True
  | .fileDone f => st.fw f = .sending
theorem estep_delivered (files : List TFile) (pieces : List TPiece) (st : EState) (a : EAct) :
    (estep files pieces st a).delivered = st.delivered ∨
    ∃ e, AppendOK st e ∧ (estep files pieces st a).delivered = st.delivered ++ [e] := by
  obtain ⟨sigs, main, spawned, pw, fw, delivered⟩ := st
  cases a
  case envClose s => exact .inl rfl
  case mainStep k =>
    show (mainStepF files.length ⟨sigs, main, spawned, pw, fw, delivered⟩ k).delivered = _ ∨
      ∃ e, _ ∧ (mainStepF files.length ⟨sigs, main, spawned, pw, fw, delivered⟩ k).delivered = _
    cases main
    case sendAdded => exact .inr ⟨.added, rfl, rfl⟩
    case sendGotInfo => exact .inr ⟨.gotInfo, rfl, rfl⟩
    case sendDownload => exact .inr ⟨.downloadDone, rfl, rfl⟩
    case sendSeeding => exact .inr ⟨.seedingDone, rfl, rfl⟩
    case sendClosed => exact .inr ⟨.closedEv, rfl, rfl⟩
    all_goals dsimp only [mainStepF]
    all_goals try split_ifs
    all_goals exact .inl rfl
  case pieceStep i k =>
    show (pieceStepF pieces.length ⟨sigs, main, spawned, pw, fw, delivered⟩ i k).delivered = _ ∨ _
    unfold pieceStepF
    split_ifs <;> exact .inl rfl
  case fileStep f k =>
    show (fileStepF files pieces ⟨sigs, main, spawned, pw, fw, delivered⟩ f k).delivered = _ ∨ _
    unfold fileStepF
    split
    · split
      · split_ifs <;> exact .inl rfl
      · split_ifs <;> exact .inl rfl
      · exact .inl rfl
    · exact .inl rfl
  case pieceSend i =>
    dsimp only [estep]
    unfold pieceSendF
    split
    · exact .inr ⟨.pieceDone i, trivial, rfl⟩
    · exact .inl rfl
  case fileSend f =>
    dsimp only [estep]
    unfold fileSendF
    split
    · rename_i h1
      exact .inr ⟨.fileDone f, h1.1, rfl⟩
    · exact .inl rfl

/-- The orderings of the spec's §4.3 contract that hold for every schedule:
`Added` before everything, `GotInfo` before every later event, every
`FileDone` before `DownloadDone`/`SeedingDone`/`Closed`, and the main
goroutine's own tail `DownloadDone` ≺ `SeedingDone` ≺ `Closed`.  (The
piece-before-containing-file and piece-before-`DownloadDone` orderings are
NOT here: they fail, see the C5 counterexample.) -/
def PInv (st : EState) : Prop :=
  Precedes EvT.added EvT.gotInfo st.delivered ∧
  (∀ i, Precedes EvT.added (EvT.pieceDone i) st.delivered) ∧
  (∀ f, Precedes EvT.added (EvT.fileDone f) st.delivered) ∧
  Precedes EvT.added EvT.downloadDone st.delivered ∧
  Precedes EvT.added EvT.seedingDone st.delivered ∧
  Precedes EvT.added EvT.closedEv st.delivered ∧
  (∀ i, Precedes EvT.gotInfo (EvT.pieceDone i) st.delivered) ∧
  (∀ f, Precedes EvT.gotInfo (EvT.fileDone f) st.delivered) ∧
  Precedes EvT.gotInfo EvT.downloadDone st.delivered ∧
  Precedes EvT.gotInfo EvT.seedingDone st.delivered ∧
  Precedes EvT.gotInfo EvT.closedEv st.delivered ∧
  (∀ f, Precedes (EvT.fileDone f) EvT.downloadDone st.delivered) ∧
  (∀ f, Precedes (EvT.fileDone f) EvT.seedingDone st.delivered) ∧
  (∀ f, Precedes (EvT.fileDone f) EvT.closedEv st.delivered) ∧
  Precedes EvT.downloadDone EvT.seedingDone st.delivered ∧
  Precedes EvT.downloadDone EvT.closedEv st.delivered ∧
  Precedes EvT.seedingDone EvT.closedEv st.delivered

theorem PInv_step (files : List TFile) (pieces : List TPiece) (st : EState) (a : EAct)
    (hE : EInv files pieces st) (hP : PInv st) : PInv (estep files pieces st a) := by
  rcases estep_delivered files pieces st a with heq | ⟨e, hok, heq⟩
  · unfold PInv at hP ⊢
    rw [heq]
    exact hP
  · obtain ⟨p1, p2, p3, p4, p5, p6, q2, q3, q4, q5, q6, r4, r5, r6, s5, s6, t6⟩ := hP
    obtain ⟨ha, hb, he, hf, hg, hsd, hcl, hhf, hhp, hk, hl, hmf, hmp⟩ := hE
    unfold PInv
    rw [heq]
    cases e
    case added =>
      have hng : EvT.gotInfo ∉ st.delivered := fun hx => absurd (hf hx) (by rw [hok]; decide)
      have hsp : st.spawned = false := by
        cases hq : st.spawned
        · rfl
        · exact absurd (hb hq) (by rw [hok]; decide)
      have hnp : ∀ i, EvT.pieceDone i ∉ st.delivered := (ha hsp).2.2.1
      have hnf : ∀ z, EvT.fileDone z ∉ st.delivered := (ha hsp).2.2.2
      have hnd : EvT.downloadDone ∉ st.delivered := fun hx => absurd (hg hx).1 (by rw [hok]; decide)
      have hns : EvT.seedingDone ∉ st.delivered := fun hx => absurd (hsd hx) (by rw [hok]; decide)
      have hnc : EvT.closedEv ∉ st.delivered := fun hx => absurd (hcl hx) (by rw [hok]; decide)
      exact ⟨precedes_snoc p1 (fun h => nomatch h) (fun _ => hng),
        fun i => precedes_snoc (p2 i) (fun h => nomatch h) (fun _ => hnp i),
        fun z => precedes_snoc (p3 z) (fun h => nomatch h) (fun _ => hnf z),
        precedes_snoc p4 (fun h => nomatch h) (fun _ => hnd),
        precedes_snoc p5 (fun h => nomatch h) (fun _ => hns),
        precedes_snoc p6 (fun h => nomatch h) (fun _ => hnc),
        fun i => precedes_snoc (q2 i) (fun h => nomatch h) (fun h => nomatch h),
        fun z => precedes_snoc (q3 z) (fun h => nomatch h) (fun h => nomatch h),
        precedes_snoc q4 (fun h => nomatch h) (fun h => nomatch h),
        precedes_snoc q5 (fun h => nomatch h) (fun h => nomatch h),
        precedes_snoc q6 (fun h => nomatch h) (fun h => nomatch h),
        fun z => precedes_snoc (r4 z) (fun h => nomatch h) (fun h => nomatch h),
        fun z => precedes_snoc (r5 z) (fun h => nomatch h) (fun h => nomatch h),
        fun z => precedes_snoc (r6 z) (fun h => nomatch h) (fun h => nomatch h),
        precedes_snoc s5 (fun h => nomatch h) (fun h => nomatch h),
        precedes_snoc s6 (fun h => nomatch h) (fun h => nomatch h),
        precedes_snoc t6 (fun h => nomatch h) (fun h => nomatch h)⟩
    case gotInfo =>
      have hsp : st.spawned = false := by
        cases hq : st.spawned
        · rfl
        · exact absurd (hb hq) (by rw [hok]; decide)
      have hnp : ∀ i, EvT.pieceDone i ∉ st.delivered := (ha hsp).2.2.1
      have hnf : ∀ z, EvT.fileDone z ∉ st.delivered := (ha hsp).2.2.2
      have hnd : EvT.downloadDone ∉ st.delivered := fun hx => absurd (hg hx).1 (by rw [hok]; decide)
      have hns : EvT.seedingDone ∉ st.delivered := fun hx => absurd (hsd hx) (by rw [hok]; decide)
      have hnc : EvT.closedEv ∉ st.delivered := fun hx => absurd (hcl hx) (by rw [hok]; decide)
      exact ⟨precedes_snoc p1 (fun h => nomatch h) (fun h => nomatch h),
        fun i => precedes_snoc (p2 i) (fun h => nomatch h) (fun h => nomatch h),
        fun z => precedes_snoc (p3 z) (fun h => nomatch h) (fun h => nomatch h),
        precedes_snoc p4 (fun h => nomatch h) (fun h => nomatch h),
        precedes_snoc p5 (fun h => nomatch h) (fun h => nomatch h),
        precedes_snoc p6 (fun h => nomatch h) (fun h => nomatch h),
        fun i => precedes_snoc (q2 i) (fun h => nomatch h) (fun _ => hnp i),
        fun z => precedes_snoc (q3 z) (fun h => nomatch h) (fun _ => hnf z),
        precedes_snoc q4 (fun h => nomatch h) (fun _ => hnd),
        precedes_snoc q5 (fun h => nomatch h) (fun _ => hns),
        precedes_snoc q6 (fun h => nomatch h) (fun _ => hnc),
        fun z => precedes_snoc (r4 z) (fun h => nomatch h) (fun h => nomatch h),
        fun z => precedes_snoc (r5 z) (fun h => nomatch h) (fun h => nomatch h),
        fun z => precedes_snoc (r6 z) (fun h => nomatch h) (fun h => nomatch h),
        precedes_snoc s5 (fun h => nomatch h) (fun h => nomatch h),
        precedes_snoc s6 (fun h => nomatch h) (fun h => nomatch h),
        precedes_snoc t6 (fun h => nomatch h) (fun h => nomatch h)⟩
    case pieceDone i =>
      exact ⟨precedes_snoc p1 (fun h => nomatch h) (fun h => nomatch h),
        fun i' => precedes_snoc (p2 i') (fun h => nomatch h) (fun h => nomatch h),
        fun z => precedes_snoc (p3 z) (fun h => nomatch h) (fun h => nomatch h),
        precedes_snoc p4 (fun h => nomatch h) (fun h => nomatch h),
        precedes_snoc p5 (fun h => nomatch h) (fun h => nomatch h),
        precedes_snoc p6 (fun h => nomatch h) (fun h => nomatch h),
        fun i' => precedes_snoc (q2 i') (fun h => nomatch h) (fun h => nomatch h),
        fun z => precedes_snoc (q3 z) (fun h => nomatch h) (fun h => nomatch h),
        precedes_snoc q4 (fun h => nomatch h) (fun h => nomatch h),
        precedes_snoc q5 (fun h => nomatch h) (fun h => nomatch h),
        precedes_snoc q6 (fun h => nomatch h) (fun h => nomatch h),
        fun z => precedes_snoc (r4 z) (fun h => nomatch h) (fun h => nomatch h),
        fun z => precedes_snoc (r5 z) (fun h => nomatch h) (fun h => nomatch h),
        fun z => precedes_snoc (r6 z) (fun h => nomatch h) (fun h => nomatch h),
        precedes_snoc s5 (fun h => nomatch h) (fun h => nomatch h),
        precedes_snoc s6 (fun h => nomatch h) (fun h => nomatch h),
        precedes_snoc t6 (fun h => nomatch h) (fun h => nomatch h)⟩
    case fileDone f =>
      have hflt : f < files.length := by
        rcases Nat.lt_or_ge f files.length with h' | h'
        · exact h'
        · exact absurd ((hhf f h').symm.trans hok) (by decide)
      have hspt : st.spawned = true := by
        cases hq : st.spawned
        · exact absurd (((ha hq).2.1 f).symm.trans hok) (by decide)
        · rfl
      have hnd : EvT.downloadDone ∉ st.delivered := by
        intro hx
        obtain ⟨b, hbb⟩ := (hg hx).2 f hflt
        exact absurd (hbb.symm.trans hok) (by simp)
      have hns : EvT.seedingDone ∉ st.delivered := by
        intro hx
        have hr := hsd hx
        rcases Nat.lt_or_ge (mainRank st.main) 11 with hlt | hge
        · obtain ⟨b, hbb⟩ := hk (by omega) (by omega) f hflt
          exact absurd (hbb.symm.trans hok) (by simp)
        · rcases hl hge with h' | h'
          · exact absurd (hspt.symm.trans h') (by decide)
          · obtain ⟨b, hbb⟩ := h' f hflt
            exact absurd (hbb.symm.trans hok) (by simp)
      have hnc : EvT.closedEv ∉ st.delivered := by
        intro hx
        have hr := hcl hx
        rcases hl (by omega) with h' | h'
        · exact absurd (hspt.symm.trans h') (by decide)
        · obtain ⟨b, hbb⟩ := h' f hflt
          exact absurd (hbb.symm.trans hok) (by simp)
      exact ⟨precedes_snoc p1 (fun h => nomatch h) (fun h => nomatch h),
        fun i' => precedes_snoc (p2 i') (fun h => nomatch h) (fun h => nomatch h),
        fun z => precedes_snoc (p3 z) (fun h => nomatch h) (fun h => nomatch h),
        precedes_snoc p4 (fun h => nomatch h) (fun h => nomatch h),
        precedes_snoc p5 (fun h => nomatch h) (fun h => nomatch h),
        precedes_snoc p6 (fun h => nomatch h) (fun h => nomatch h),
        fun i' => precedes_snoc (q2 i') (fun h => nomatch h) (fun h => nomatch h),
        fun z => precedes_snoc (q3 z) (fun h => nomatch h) (fun h => nomatch h),
        precedes_snoc q4 (fun h => nomatch h) (fun h => nomatch h),
        precedes_snoc q5 (fun h => nomatch h) (fun h => nomatch h),
        precedes_snoc q6 (fun h => nomatch h) (fun h => nomatch h),
        fun z => precedes_snoc (r4 z) (fun h => nomatch h) (fun _ => hnd),
        fun z => precedes_snoc (r5 z) (fun h => nomatch h) (fun _ => hns),
        fun z => precedes_snoc (r6 z) (fun h => nomatch h) (fun _ => hnc),
        precedes_snoc s5 (fun h => nomatch h) (fun h => nomatch h),
        precedes_snoc s6 (fun h => nomatch h) (fun h => nomatch h),
        precedes_snoc t6 (fun h => nomatch h) (fun h => nomatch h)⟩
    case downloadDone =>
      have hns : EvT.seedingDone ∉ st.delivered := fun hx => absurd (hsd hx) (by rw [hok]; decide)
      have hnc : EvT.closedEv ∉ st.delivered := fun hx => absurd (hcl hx) (by rw [hok]; decide)
      exact ⟨precedes_snoc p1 (fun h => nomatch h) (fun h => nomatch h),
        fun i' => precedes_snoc (p2 i') (fun h => nomatch h) (fun h => nomatch h),
        fun z => precedes_snoc (p3 z) (fun h => nomatch h) (fun h => nomatch h),
        precedes_snoc p4 (fun h => nomatch h) (fun h => nomatch h),
        precedes_snoc p5 (fun h => nomatch h) (fun h => nomatch h),
        precedes_snoc p6 (fun h => nomatch h) (fun h => nomatch h),
        fun i' => precedes_snoc (q2 i') (fun h => nomatch h) (fun h => nomatch h),
        fun z => precedes_snoc (q3 z) (fun h => nomatch h) (fun h => nomatch h),
        precedes_snoc q4 (fun h => nomatch h) (fun h => nomatch h),
        precedes_snoc q5 (fun h => nomatch h) (fun h => nomatch h),
        precedes_snoc q6 (fun h => nomatch h) (fun h => nomatch h),
        fun z => precedes_snoc (r4 z) (fun h => nomatch h) (fun h => nomatch h),
        fun z => precedes_snoc (r5 z) (fun h => nomatch h) (fun h => nomatch h),
        fun z => precedes_snoc (r6 z) (fun h => nomatch h) (fun h => nomatch h),
        precedes_snoc s5 (fun h => nomatch h) (fun _ => hns),
        precedes_snoc s6 (fun h => nomatch h) (fun _ => hnc),
        precedes_snoc t6 (fun h => nomatch h) (fun h => nomatch h)⟩
    case seedingDone =>
      have hnc : EvT.closedEv ∉ st.delivered := fun hx => absurd (hcl hx) (by rw [hok]; decide)
      exact ⟨precedes_snoc p1 (fun h => nomatch h) (fun h => nomatch h),
        fun i' => precedes_snoc (p2 i') (fun h => nomatch h) (fun h => nomatch h),
        fun z => precedes_snoc (p3 z) (fun h => nomatch h) (fun h => nomatch h),
        precedes_snoc p4 (fun h => nomatch h) (fun h => nomatch h),
        precedes_snoc p5 (fun h => nomatch h) (fun h => nomatch h),
        precedes_snoc p6 (fun h => nomatch h) (fun h => nomatch h),
        fun i' => precedes_snoc (q2 i') (fun h => nomatch h) (fun h => nomatch h),
        fun z => precedes_snoc (q3 z) (fun h => nomatch h) (fun h => nomatch h),
        precedes_snoc q4 (fun h => nomatch h) (fun h => nomatch h),
        precedes_snoc q5 (fun h => nomatch h) (fun h => nomatch h),
        precedes_snoc q6 (fun h => nomatch h) (fun h => nomatch h),
        fun z => precedes_snoc (r4 z) (fun h => nomatch h) (fun h => nomatch h),
        fun z => precedes_snoc (r5 z) (fun h => nomatch h) (fun h => nomatch h),
        fun z => precedes_snoc (r6 z) (fun h => nomatch h) (fun h => nomatch h),
        precedes_snoc s5 (fun h => nomatch h) (fun h => nomatch h),
        precedes_snoc s6 (fun h => nomatch h) (fun h => nomatch h),
        precedes_snoc t6 (fun h => nomatch h) (fun _ => hnc)⟩
    case closedEv =>
      exact ⟨precedes_snoc p1 (fun h => nomatch h) (fun h => nomatch h),
        fun i' => precedes_snoc (p2 i') (fun h => nomatch h) (fun h => nomatch h),
        fun z => precedes_snoc (p3 z) (fun h => nomatch h) (fun h => nomatch h),
        precedes_snoc p4 (fun h => nomatch h) (fun h => nomatch h),
        precedes_snoc p5 (fun h => nomatch h) (fun h => nomatch h),
        precedes_snoc p6 (fun h => nomatch h) (fun h => nomatch h),
        fun i' => precedes_snoc (q2 i') (fun h => nomatch h) (fun h => nomatch h),
        fun z => precedes_snoc (q3 z) (fun h => nomatch h) (fun h => nomatch h),
        precedes_snoc q4 (fun h => nomatch h) (fun h => nomatch h),
        precedes_snoc q5 (fun h => nomatch h) (fun h => nomatch h),
        precedes_snoc q6 (fun h => nomatch h) (fun h => nomatch h),
        fun z => precedes_snoc (r4 z) (fun h => nomatch h) (fun h => nomatch h),
        fun z => precedes_snoc (r5 z) (fun h => nomatch h) (fun h => nomatch h),
        fun z => precedes_snoc (r6 z) (fun h => nomatch h) (fun h => nomatch h),
        precedes_snoc s5 (fun h => nomatch h) (fun h => nomatch h),
        precedes_snoc s6 (fun h => nomatch h) (fun h => nomatch h),
        precedes_snoc t6 (fun h => nomatch h) (fun h => nomatch h)⟩

theorem EInv_step (files : List TFile) (pieces : List TPiece) (st : EState) (a : EAct)
    (h : EInv files pieces st) : EInv files pieces (estep files pieces st a) := by
  cases a
  case envClose s => exact EInv_envClose files pieces st s h
  case mainStep k => exact EInv_mainStep files pieces st k h
  case pieceStep i k => exact EInv_pieceStep files pieces st i k h
  case fileStep f k => exact EInv_fileStep files pieces st f k h
  case pieceSend i => exact EInv_pieceSend files pieces st i h
  case fileSend f => exact EInv_fileSend files pieces st f h

theorem PInv_init : PInv EState.init := by
  refine ⟨?_, ?_, ?_, ?_, ?_, ?_, ?_, ?_, ?_, ?_, ?_, ?_, ?_, ?_, ?_, ?_, ?_⟩ <;>
    first
      | (intro z i j hi hj; cases hi)
      | (intro i j hi hj; cases hi)

theorem EPInv_foldl (files : List TFile) (pieces : List TPiece) (sched : List EAct) :
    ∀ st : EState, EInv files pieces st → PInv st →
      EInv files pieces (sched.foldl (estep files pieces) st) ∧
      PInv (sched.foldl (estep files pieces) st) := by
  induction sched with
  | nil => exact fun _ hE hP => ⟨hE, hP⟩
  | cons a rest ih =>
    intro st hE hP
    exact ih (estep files pieces st a) (EInv_step files pieces st a hE)
      (PInv_step files pieces st a hE hP)

/-- Both invariant bundles hold in every reachable state of the stream. -/
theorem EPInv_exec (files : List TFile) (pieces : List TPiece) (sched : List EAct) :
    EInv files pieces (eexec files pieces sched) ∧ PInv (eexec files pieces sched) :=
  EPInv_foldl files pieces sched EState.init (EInv_init files pieces) PInv_init


/-! ## The event-stream claims: C2, C5, C8 -/

theorem noclosed_step (files : List TFile) (pieces : List TPiece) (st : EState) (a : EAct)
    (h1 : ESig.closedSig ∉ st.sigs) (h2 : st.main ≠ .sendClosed)
    (h3 : EvT.closedEv ∉ st.delivered) (hna : a ≠ EAct.envClose ESig.closedSig) :
    ESig.closedSig ∉ (estep files pieces st a).sigs ∧
    (estep files pieces st a).main ≠ .sendClosed ∧
    EvT.closedEv ∉ (estep files pieces st a).delivered := by
  obtain ⟨sigs, main, spawned, pw, fw, delivered⟩ := st
  cases a
  case envClose s =>
    refine ⟨?_, h2, h3⟩
    intro hmem
    simp only [estep, List.mem_cons] at hmem
    rcases hmem with hmem | hmem
    · exact hna (by rw [hmem])
    · exact h1 hmem
  case mainStep k =>
    dsimp only [estep]
    cases main
    case sendClosed => exact absurd rfl h2
    all_goals dsimp only [mainStepF]
    all_goals try split_ifs with hc1 hc2 hc3
    all_goals refine ⟨h1, ?_, ?_⟩
    all_goals try exact absurd hc1.2 h1
    all_goals try exact absurd hc2.2 h1
    all_goals try exact h3
    all_goals try (intro hx
                   rcases List.mem_append.mp hx with hx | hx
                   · exact h3 hx
                   · simp at hx)
    all_goals exact fun hh => nomatch hh
  case pieceStep i k =>
    dsimp only [estep]
    unfold pieceStepF
    split_ifs <;> exact ⟨h1, h2, h3⟩
  case fileStep f k =>
    dsimp only [estep]
    unfold fileStepF
    split
    · split
      · split_ifs <;> exact ⟨h1, h2, h3⟩
      · split_ifs <;> exact ⟨h1, h2, h3⟩
      · exact ⟨h1, h2, h3⟩
    · exact ⟨h1, h2, h3⟩
  case pieceSend i =>
    dsimp only [estep]
    unfold pieceSendF
    split
    · refine ⟨h1, h2, ?_⟩
      intro hx
      rcases List.mem_append.mp hx with hx | hx
      · exact h3 hx
      · simp at hx
    · exact ⟨h1, h2, h3⟩
  case fileSend f =>
    dsimp only [estep]
    unfold fileSendF
    split
    · refine ⟨h1, h2, ?_⟩
      intro hx
      rcases List.mem_append.mp hx with hx | hx
      · exact h3 hx
      · simp at hx
    · exact ⟨h1, h2, h3⟩

theorem noclosed_foldl (files : List TFile) (pieces : List TPiece) (sched : List EAct) :
    ∀ st : EState, (∀ a ∈ sched, a ≠ EAct.envClose ESig.closedSig) →
      ESig.closedSig ∉ st.sigs → st.main ≠ .sendClosed → EvT.closedEv ∉ st.delivered →
      ESig.closedSig ∉ (sched.foldl (estep files pieces) st).sigs ∧
      (sched.foldl (estep files pieces) st).main ≠ .sendClosed ∧
      EvT.closedEv ∉ (sched.foldl (estep files pieces) st).delivered := by
  induction sched with
  | nil => exact fun _ _ h1 h2 h3 => ⟨h1, h2, h3⟩
  | cons a rest ih =>
    intro st hsched h1 h2 h3
    obtain ⟨g1, g2, g3⟩ := noclosed_step files pieces st a h1 h2 h3
      (hsched a (List.mem_cons_self a rest))
    exact ih (estep files pieces st a)
      (fun a' ha' => hsched a' (List.mem_cons_of_mem a ha')) g1 g2 g3

/-- Geometry and schedules used as concrete stream runs: one file `[0,10)`,
one piece `[0,10)` (so piece 0 lies in file 0). -/
def evFiles : List TFile := [⟨0, 10⟩]

def evPieces : List TPiece := [⟨0, 10⟩]

/-- A run in which the tracker closes `pieceDone 0` and `fileDone 0`, the
piece goroutine commits its send, but the file goroutine's send is received
first: delivered `Added, GotInfo, FileDone 0, PieceDone 0`. -/
def evSchedPieceLate : List EAct :=
  [.envClose .added, .mainStep 0, .mainStep 0,
   .envClose .gotInfo, .mainStep 0, .mainStep 0,
   .envClose .chansReady, .mainStep 0,
   .envClose (.pieceDone 0), .envClose (.fileDone 0),
   .pieceStep 0 0, .fileStep 0 0, .fileStep 0 0,
   .fileSend 0, .pieceSend 0]

/-- The same run continued through `DownloadDone`, `SeedingDone` and `Closed`
to the final `close(events)`. -/
def evSchedFull : List EAct := evSchedPieceLate ++
  [.mainStep 0, .envClose .downloadDone, .mainStep 0, .mainStep 0,
   .envClose .seedingDone, .mainStep 0, .mainStep 0,
   .envClose .closedSig, .mainStep 0, .mainStep 0, .mainStep 0]

/-- `Added` is delivered, then the caller's `done` fires, then the transfer
closes; the `GotInfo`-stage select takes its `Closed` branch. -/
def evSchedClosedRace : List EAct :=
  [.envClose .added, .mainStep 0, .mainStep 0,
   .envClose .cancel, .envClose .closedSig,
   .mainStep 1, .mainStep 0, .mainStep 0]

/-- The caller's `done` fires before anything else; the first select returns
and the deferred `close(events)` runs: a silent termination. -/
def evSchedCancelOnly : List EAct := [.envClose .cancel, .mainStep 2, .mainStep 0]

/-- C2: for every schedule of `Events`' goroutines, once `DownloadDone` has
been delivered every per-file goroutine has returned — the `sync.WaitGroup`
join barrier before the `DownloadDone` stage — each either having emitted its
`FileDone`, which was then delivered before `DownloadDone`, or having exited
early via the `Closed`/`done` select branches. -/
theorem C2_download_join_barrier (files : List TFile) (pieces : List TPiece) (sched : List EAct)
    (h : EvT.downloadDone ∈ (eexec files pieces sched).delivered) :
    ∀ f, f < files.length →
      ∃ b, (eexec files pieces sched).fw f = FPC.finished b ∧
        (b = true → EvT.fileDone f ∈ (eexec files pieces sched).delivered ∧
          Precedes (EvT.fileDone f) EvT.downloadDone (eexec files pieces sched).delivered) := by
  obtain ⟨hE, hP⟩ := EPInv_exec files pieces sched
  obtain ⟨ha, hb, he, hf', hg, hsd, hcl, hhf, hhp, hk, hl, hmf, hmp⟩ := hE
  obtain ⟨p1, p2, p3, p4, p5, p6, q2, q3, q4, q5, q6, r4, r5, r6, s5, s6, t6⟩ := hP
  intro f hflt
  obtain ⟨b, hbb⟩ := (hg h).2 f hflt
  refine ⟨b, hbb, ?_⟩
  intro hbt
  subst hbt
  exact ⟨hmf f hbb, r4 f⟩

theorem C2_download_join_barrier_witness :
    EvT.downloadDone ∈ (eexec evFiles evPieces evSchedFull).delivered ∧
    (∀ f, f < evFiles.length →
      ∃ b, (eexec evFiles evPieces evSchedFull).fw f = FPC.finished b ∧
        (b = true → EvT.fileDone f ∈ (eexec evFiles evPieces evSchedFull).delivered ∧
          Precedes (EvT.fileDone f) EvT.downloadDone (eexec evFiles evPieces evSchedFull).delivered)) :=
  ⟨by decide, C2_download_join_barrier evFiles evPieces evSchedFull (by decide)⟩

/-- C5 counterexample: the claimed ordering "each `PieceDone` precedes the
`FileDone` of every file containing that piece" fails.  The per-file
goroutine's `pieceWg` waits on the piece-done *channels*, not on delivery of
the `PieceDone` *events*; a committed `PieceDone` send can be received after
the containing file's `FileDone`.  Here piece 0 lies in file 0, yet the
delivered sequence is `Added, GotInfo, FileDone 0, PieceDone 0`. -/
theorem C5_counterexample_piece_after_file :
    (0 : Nat) ∈ getPieceIndices evPieces (evFiles.getD 0 ⟨0, 0⟩) ∧
    (eexec evFiles evPieces evSchedPieceLate).delivered
      = [EvT.added, EvT.gotInfo, EvT.fileDone 0, EvT.pieceDone 0] ∧
    ¬ Precedes (EvT.pieceDone 0) (EvT.fileDone 0)
        (eexec evFiles evPieces evSchedPieceLate).delivered := by
  refine ⟨by decide, by decide, fun hP => ?_⟩
  have h32 := hP 3 2 (by decide) (by decide)
  omega

/-- C5: the part of the §4.3 ordering contract that does hold for every
subscriber and every schedule: `Added` precedes everything, `GotInfo`
precedes every piece/file/download/seeding/closed event, every `FileDone`
precedes `DownloadDone`, `SeedingDone` and `Closed`, and
`DownloadDone ≺ SeedingDone ≺ Closed`.  The piece-before-containing-file and
piece-before-`DownloadDone` clauses are dropped: they fail (see the
counterexample). -/
theorem C5_event_order (files : List TFile) (pieces : List TPiece) (sched : List EAct) :
    PInv (eexec files pieces sched) :=
  (EPInv_exec files pieces sched).2

/-- C8 counterexample: the caller's `done` fires while the `GotInfo` stage's
signal never closes, yet the stream does not terminate silently: the
transfer's `Closed` channel is also ready and the select may choose it,
emitting a synthetic `Closed` event after cancellation fired. -/
theorem C8_counterexample_synthetic_closed :
    ESig.cancel ∈ (eexec evFiles evPieces evSchedClosedRace).sigs ∧
    ESig.gotInfo ∉ (eexec evFiles evPieces evSchedClosedRace).sigs ∧
    (eexec evFiles evPieces evSchedClosedRace).delivered = [EvT.added, EvT.closedEv] :=
  ⟨by decide, by decide, by decide⟩

/-- C8: the silent-termination guarantee that does hold: if the transfer's
`Closed` channel never closes, no schedule — in particular none in which the
caller's `done` fires at any stage — ever delivers a `Closed` event: the
stream never emits `Closed` on behalf of the caller.  (When `done` and the
transfer's close race, the select may emit `Closed`; see the
counterexample.) -/
theorem C8_no_synthetic_closed (files : List TFile) (pieces : List TPiece) (sched : List EAct)
    (h : ∀ a ∈ sched, a ≠ EAct.envClose ESig.closedSig) :
    EvT.closedEv ∉ (eexec files pieces sched).delivered :=
  (noclosed_foldl files pieces sched EState.init h (by decide) (by decide) (by decide)).2.2

theorem C8_no_synthetic_closed_witness :
    (∀ a ∈ evSchedCancelOnly, a ≠ EAct.envClose ESig.closedSig) ∧
    EvT.closedEv ∉ (eexec evFiles evPieces evSchedCancelOnly).delivered :=
  ⟨by decide, C8_no_synthetic_closed evFiles evPieces evSchedCancelOnly (by decide)⟩
